import Mathlib

/-!
# Verification of the shift-lineup generation engine

This file gives a shallow embedding, in Lean 4, of the lineup-generation
engine of the `shift-lineup` repository (the current generator source,
`src/unnamed/part_001`), together with proofs settling the frozen claims
about its specification.

Modelling conventions:
* JavaScript strings are modelled as `List Char` (`Str` below).  The JS
  string operations used by the engine (`split`, `includes`, `replace` with
  an empty replacement, `toLowerCase`, `startsWith`-style prefix tests) are
  embedded as explicit recursive functions on `List Char` with the same
  semantics.
* JS numbers are embedded as `Nat` for scores and minute values (all
  arithmetic on them is non-negative), as `Int` for priorities and display
  order keys (which can be negative), and as `Rat` for `hoursWorked`
  (a division by 60; exact for the integer minute differences that occur,
  and the float rounding of `x/60` can never cross the dyadic thresholds
  4, 4.5, 7, 7.5 used by the break rules).
* JS objects acting as string-keyed dictionaries are embedded as
  association lists built in reverse, so that `List.lookup` (first match)
  returns the most recently written binding, matching JS assignment
  overwrite semantics.
* `Array.prototype.sort` with a `key a - key b` comparator is (per ES2019)
  the stable ascending sort by `key`; it is embedded as
  `List.insertionSort (key · ≤ key ·)`, which is stable and sorted, hence
  extensionally the same function.
* Missing (`undefined`) fields are embedded as `Option` values or as
  default values (`[]` for absent skill lists, `false` for absent flags),
  mirroring how the engine's truthiness tests treat them.
-/

namespace ShiftLineup

/-- JS strings as lists of characters. -/
abbrev Str := List Char

/-- Shorthand to turn a Lean string literal into a `Str`. -/
def str (s : String) : Str := s.data

/-- `s.split(sep)` for a one-character separator: splits at every
occurrence of `sep`, keeping empty pieces (so the result is never `[]`). -/
def splitOnChar (sep : Char) : Str → List Str
  | [] => [[]]
  | c :: rest =>
    let r := splitOnChar sep rest
    if c = sep then [] :: r
    else
      match r with
      | h :: t => (c :: h) :: t
      | [] => [[c]]

/-- `s.replace(pat, ... )` with an empty replacement string: removes the
first occurrence of `pat` from `s` (and leaves `s` unchanged when `pat`
does not occur; for `pat = []` JS inserts the empty string at position 0,
i.e. also leaves `s` unchanged). -/
def replaceFirst (pat : Str) : Str → Str
  | [] => if pat.isPrefixOf ([] : Str) then ([] : Str).drop pat.length else []
  | c :: rest =>
    if pat.isPrefixOf (c :: rest) then (c :: rest).drop pat.length
    else c :: replaceFirst pat rest

/-- `s.includes(pat)`: substring containment. -/
def strIncludes (s pat : Str) : Bool := decide (List.IsInfix pat s)

/-- `c.toLowerCase()` for a single character (ASCII; all names used by the
engine are ASCII). -/
def lowerChar (c : Char) : Char :=
  if 'A' ≤ c ∧ c ≤ 'Z' then Char.ofNat (c.toNat + 32) else c

/-- `s.toLowerCase()` (ASCII). -/
def lowerStr (s : Str) : Str := s.map lowerChar

/-- `Number(s)` on a well-formed decimal digit string (`Number("") = 0`
also matches the `[]` case). -/
def parseNat (s : Str) : Nat :=
  s.foldl (fun a c => a * 10 + (c.toNat - 48)) 0

/-- Little-endian decimal digits of `n`, with explicit fuel (the fuel is
always instantiated with `n` itself, which suffices since `n / 10`
shrinks by at least one for `n ≥ 1`). -/
def digitsRevGo : Nat → Nat → List Nat
  | 0, _ => []
  | fuel + 1, n => if n = 0 then [] else n % 10 :: digitsRevGo fuel (n / 10)

/-- Decimal rendering of a natural number, as produced by JS
`n.toString()`. -/
def natToStr (n : Nat) : Str :=
  if n = 0 then ['0'] else ((digitsRevGo n n).map Nat.digitChar).reverse

/-- `n.toString().padStart(2, "0")`. -/
def pad2 (n : Nat) : Str :=
  if n < 10 then '0' :: natToStr n else natToStr n

/-- `parts.join("/")`. -/
def joinSlash (parts : List Str) : Str := List.intercalate [slash] parts
  where slash : Char := '/'

/-! ## Data model

The records flowing through the engine.  A `ShiftWindow` is one entry of
the `shiftAssignments` input (worker id, name, times, per-shift role
flags); an `EmployeeRec` is one employee skill record; an `Employee` is
the merged ("enriched") record `(...window, ...employeeRec, name)` that the
generator works with. -/

structure ShiftWindow where
  employeeId : Option Str
  name : Option Str
  startTime : Str
  endTime : Str
  isShiftLead : Bool := false
  isBooster : Bool := false
  isInTraining : Bool := false
deriving DecidableEq, Repr

structure EmployeeRec where
  id : Option Str
  name : Option Str
  positions : List Str
  bestPositions : List Str
  isMinor : Bool := false
deriving DecidableEq, Repr

structure Employee where
  employeeId : Option Str
  id : Option Str
  name : Option Str
  startTime : Str
  endTime : Str
  positions : List Str
  bestPositions : List Str
  isMinor : Bool
  isShiftLead : Bool
  isBooster : Bool
  isInTraining : Bool
deriving DecidableEq, Repr

/-- A database position slot (`name`, integer `priority` or unset,
applicable `timePeriods` or unset, `requiresClosing`). -/
structure PositionRec where
  name : Str
  priority : Option Int := none
  timePeriods : Option (List Str) := none
  requiresClosing : Bool := false
deriving DecidableEq, Repr

/-- An assignment record; `needsBreak`/`breakType` are added by
`generateLineups` after the assignment phase. -/
structure Assignment where
  employee : Employee
  position : Str
  matchQuality : Str
  needsBreak : Bool := false
  breakType : Option Str := none
deriving DecidableEq, Repr

structure Lineup where
  startTime : Str
  endTime : Str
  shiftPeriod : Str
  peopleCount : Nat
  positionsUsed : Nat
  extraPeople : Nat
  assignments : List Assignment
deriving DecidableEq, Repr

structure ClosingLineup where
  title : Str
  assignments : List Assignment
  peopleCount : Nat
deriving DecidableEq, Repr

/-- JS truthiness of an optional string (`undefined` and `""` are falsy). -/
def truthyS : Option Str → Bool
  | none => false
  | some s => !s.isEmpty

/-- `a || b` on optional strings. -/
def orS (a b : Option Str) : Option Str := if truthyS a then a else b

/-- `employee.employeeId || employee.id || employee.name`: the dictionary
key used for an employee throughout the engine. -/
def empIdOf (e : Employee) : Option Str := orS e.employeeId (orS e.id e.name)

/-! ## Time helpers -/

/-- `timeToMinutes`: parse `"HH:MM"` to minutes from midnight. -/
def timeToMinutes (timeString : Str) : Nat :=
  match splitOnChar ':' timeString with
  | h :: m :: _ => parseNat h * 60 + parseNat m
  | [h] => parseNat h * 60
  | [] => 0

/-- `minutesToTime`: format minutes as `"HH:MM"`. -/
def minutesToTime (minutes : Nat) : Str :=
  pad2 (minutes / 60) ++ ':' :: pad2 (minutes % 60)

/-- `getShiftPeriod`: classify a time string into one of the five fixed
day segments, or `none`. -/
def getShiftPeriod (timeString : Str) : Option Str :=
  let t := timeToMinutes timeString
  if 360 ≤ t ∧ t < 630 then some (str "morning")
  else if 630 ≤ t ∧ t < 840 then some (str "lunch")
  else if 840 ≤ t ∧ t < 1020 then some (str "midday")
  else if 1020 ≤ t ∧ t < 1200 then some (str "dinner")
  else if 1200 ≤ t ∧ t < 1320 then some (str "lateNight")
  else none

/-- `getChangePoints`: all distinct start/end minute marks, ascending.
The JS builds a `Set` in insertion order and then sorts numerically. -/
def getChangePoints (shiftAssignments : List Employee) : List Nat :=
  let points :=
    (shiftAssignments.flatMap fun a =>
      [timeToMinutes a.startTime, timeToMinutes a.endTime]).dedup
  points.insertionSort (· ≤ ·)

/-- `getWorkingEmployees`: the working set at minute `t`. -/
def getWorkingEmployees (shiftAssignments : List Employee) (t : Nat) :
    List Employee :=
  shiftAssignments.filter fun a =>
    timeToMinutes a.startTime ≤ t ∧ t < timeToMinutes a.endTime

/-- The signed shift length in minutes. -/
def minutesWorked (startTime endTime : Str) : Int :=
  (timeToMinutes endTime : Int) - (timeToMinutes startTime : Int)

/-- `hoursWorked = (timeToMinutes(endTime) - timeToMinutes(startTime)) / 60`,
as an exact rational. -/
def hoursWorked (startTime endTime : Str) : Rat :=
  (minutesWorked startTime endTime : Rat) / 60

/-- `calculateBreakFlags`: `(needsBreak, breakType)` from the shift
length.  The JS compares `hoursWorked = minutes/60` against 4.5/4 and
7.5/7; since the thresholds are dyadic and minute counts are integers,
those floating-point tests are exact and equal the integer-minute tests
used here (`hoursWorked ≥ t ↔ minutes ≥ 60·t`, proved as part of C9). -/
def calculateBreakFlags (employee : Employee) (startTime endTime : Str) :
    Bool × Option Str :=
  let m : Int := minutesWorked startTime endTime
  if employee.isMinor then
    if m ≥ 270 then (true, some (str "required"))
    else if m ≥ 240 then (true, some (str "optional"))
    else (false, none)
  else
    if m ≥ 450 then (true, some (str "required"))
    else if m ≥ 420 then (true, some (str "optional"))
    else (false, none)

/-! ## Position priorities and scoring -/

/-- The fixed `defaultPositionPriorities` table. -/
def defaultPositionPriorities : List (Str × Int) :=
  [ (str "lead", 1), (str "breading", 2), (str "breader", 2),
    (str "machines", 3), (str "primary", 4), (str "secondary1", 5),
    (str "DT fries", 6), (str "secondary2", 7), (str "buns", 8),
    (str "FC fries", 9), (str "fries", 6), (str "breaks", 10),
    (str "hashbrowns", 7), (str "griddle", 7), (str "fileter", 4),
    (str "primary2", 5) ]

/-- The fixed `checklistPositionPriority` table. -/
def checklistPositionPriority : List (Str × Int) :=
  [ (str "buns", 1), (str "machines", 1), (str "secondary2", 2) ]

/-- `filterPositionsByTimePeriod`: keep slots whose (effective) time
periods contain `"all"` or the target period. -/
def filterPositionsByTimePeriod (positions : List PositionRec)
    (shiftPeriod : Str) : List PositionRec :=
  positions.filter fun pos =>
    let timePeriods := pos.timePeriods.getD [str "all"]
    timePeriods.contains (str "all") || timePeriods.contains shiftPeriod

/-- `p.priority || 99`: the sort key used on database position records
(`0`, like `undefined`, is falsy in JS and falls back to 99). -/
def priorityOr99 (p : Option Int) : Int :=
  match p with
  | some v => if v = 0 then 99 else v
  | none => 99

/-- The result record of `getPositionsForPeriod`. -/
structure PeriodPositions where
  positions : List Str
  positionData : List PositionRec
deriving DecidableEq, Repr

/-- `getPositionsForPeriod`: filter by period, stable-sort ascending by
`priority || 99`, return names plus full data (`none` on an empty
catalog). -/
def getPositionsForPeriod (dbPositions : List PositionRec)
    (shiftPeriod : Str) : Option PeriodPositions :=
  if dbPositions.isEmpty then none
  else
    let filteredPositions := filterPositionsByTimePeriod dbPositions shiftPeriod
    let sortedPositions := filteredPositions.insertionSort
      (fun a b => priorityOr99 a.priority ≤ priorityOr99 b.priority)
    some ⟨sortedPositions.map (·.name), sortedPositions⟩

/-- `isDinnerRush` (computed by the assigner but otherwise unused). -/
def isDinnerRush (timeString : Str) : Bool :=
  let t := timeToMinutes timeString
  1020 ≤ t ∧ t < 1170

/-- The priority of one alternative name: the database map value if
present (`=== undefined` test, so an explicit 0 is kept), otherwise
`defaultPositionPriorities[opt] || 99`. -/
def lookupAltPriority (positionPriorityMap : Option (List (Str × Int)))
    (opt : Str) : Int :=
  match positionPriorityMap.bind (fun m => m.lookup opt) with
  | some p => p
  | none =>
    match defaultPositionPriorities.lookup opt with
    | some d => if d = 0 then 99 else d
    | none => 99

/-- `getPositionPriority`: the effective priority of a possibly
`"/"`-combined position name — fold the alternatives, keeping the lowest
number, starting from 99. -/
def getPositionPriority (position : Str)
    (positionPriorityMap : Option (List (Str × Int))) : Int :=
  let options := splitOnChar '/' position
  options.foldl
    (fun highestPriority opt =>
      let priority := lookupAltPriority positionPriorityMap opt
      if priority < highestPriority then priority else highestPriority)
    99

/-- `scoreEmployeeForPosition`: base skill score (max over the slot's
alternatives), plus the checklist-pull bonus on the slot's first
alternative, plus the +20 continuity bonus for staying in the previous
position. -/
def scoreEmployeeForPosition (employee : Employee) (position : Str)
    (boostChecklistPositions : Bool := false)
    (previousPosition : Option Str := none) : Nat :=
  let positionOptions := splitOnChar '/' position
  let bestScore := positionOptions.foldl
    (fun bestScore pos =>
      if employee.bestPositions.contains pos then max bestScore 10
      else if employee.positions.contains pos then max bestScore 5
      else bestScore)
    0
  let bestScore :=
    if boostChecklistPositions then
      let hasChecklistSkill := employee.positions.contains (str "checklist")
        || employee.bestPositions.contains (str "checklist")
      if hasChecklistSkill then
        let basePosition := (splitOnChar '/' position).headD []
        match checklistPositionPriority.lookup basePosition with
        | some p => bestScore + (if p = 1 then 15 else 12)
        | none => bestScore
      else bestScore
    else bestScore
  match previousPosition with
  | some prev =>
    let prevBase :=
      (splitOnChar '/'
        (replaceFirst (str " (floating)")
          (replaceFirst (str " (lead)") prev))).headD []
    let currOptions := splitOnChar '/' position
    if currOptions.contains prevBase || prevBase = position then bestScore + 20
    else bestScore
  | none => bestScore

/-! ## The greedy assigner and its optimizer passes -/

/-- The three-way quality label computed from an unboosted base score
(the ternary `s >= 10 ? "best" : s >= 5 ? "capable" : "fallback"`). -/
def qualityOf (s : Nat) : Str :=
  if s ≥ 10 then str "best" else if s ≥ 5 then str "capable" else str "fallback"

def leadLabel : Str := str "lead (floating)"
def boosterLabel : Str := str "booster (floating)"
def trainingLabel : Str := str "in training"
def extraLabel : Str := str "extra/support"

/-- The filtering of `positions` at the top of `assignEmployeesToPositions`:
drop slots that are only `checklist`/`precloser` markers, and strip those
markers out of combined slots. -/
def filterRealPositions (positions : List Str) : List Str :=
  (positions.filter fun pos =>
    let parts := splitOnChar '/' pos
    !(parts.all fun p => p == str "checklist" || p == str "precloser")).map
    fun pos =>
      let parts := (splitOnChar '/' pos).filter
        fun p => !(p == str "checklist" || p == str "precloser")
      if parts.length > 0 then joinSlash parts else pos

/-- Net effect of the index-collection/splice loops that pull role-flagged
workers out of the pool: the flagged workers are removed (the JS pushes
their assignments in reverse pool order, because it collects indices from
the end and splices in that order), the rest keep their order. -/
def extractFlagged (flag : Employee → Bool) (pool : List Employee) :
    List Employee × List Employee :=
  ((pool.filter flag).reverse, pool.filter fun e => !flag e)

/-- Previous-position lookup for a worker
(`previousAssignments[employeeId]`). -/
def lookupPrev (previousAssignments : List (Option Str × Str))
    (e : Employee) : Option Str :=
  previousAssignments.lookup (empIdOf e)

/-- The inner scan of the greedy fill: walk the pool keeping the first
index whose boosted score strictly exceeds the best so far (initially 0,
so only workers scoring `> 0` are ever selected). -/
def findBestLoop (position : Str)
    (previousAssignments : List (Option Str × Str)) :
    List Employee → Nat → Option (Nat × Employee) → Nat →
      Option (Nat × Employee)
  | [], _, best, _ => best
  | employee :: rest, j, best, bestScore =>
    let score := scoreEmployeeForPosition employee position true
      (lookupPrev previousAssignments employee)
    if score > bestScore then
      findBestLoop position previousAssignments rest (j + 1)
        (some (j, employee)) score
    else
      findBestLoop position previousAssignments rest (j + 1) best bestScore

def findBestEmployee (position : Str)
    (previousAssignments : List (Option Str × Str)) (pool : List Employee) :
    Option (Nat × Employee) :=
  findBestLoop position previousAssignments pool 0 none 0

/-- First pass of the assigner: for each slot in priority order, assign the
best-scoring worker (quality recomputed from the unboosted score), or pop
the pool head as a forced fallback when nobody scores `> 0`. -/
def greedyFill (previousAssignments : List (Option Str × Str)) :
    List Str → List Employee → List Assignment →
      List Assignment × List Employee
  | [], pool, acc => (acc, pool)
  | position :: rest, pool, acc =>
    match findBestEmployee position previousAssignments pool with
    | some (bestIndex, bestEmployee) =>
      let baseScore := scoreEmployeeForPosition bestEmployee position false none
      greedyFill previousAssignments rest (pool.eraseIdx bestIndex)
        (acc ++ [{ employee := bestEmployee, position := position,
                   matchQuality := qualityOf baseScore }])
    | none =>
      match pool with
      | [] => greedyFill previousAssignments rest [] acc
      | employee :: pool1 =>
        greedyFill previousAssignments rest pool1
          (acc ++ [{ employee := employee, position := position,
                     matchQuality := str "fallback" }])

/-- The skip test of both optimizer passes
(`position.includes("lead") || position.includes("booster") ||
position === "in training" || position === "extra/support"`). -/
def isSpecialPosition (position : Str) : Bool :=
  strIncludes position (str "lead") || strIncludes position (str "booster")
    || position == trainingLabel || position == extraLabel

def dummyEmployee : Employee :=
  { employeeId := none, id := none, name := none, startTime := [],
    endTime := [], positions := [], bestPositions := [], isMinor := false,
    isShiftLead := false, isBooster := false, isInTraining := false }

def dummyAssignment : Assignment :=
  { employee := dummyEmployee, position := [], matchQuality := [] }

/-- The unboosted score of an assignment's worker at a given slot. -/
def uScore (e : Employee) (position : Str) : Nat :=
  scoreEmployeeForPosition e position false none

/-- Index pairs `(i, j)` with `i < j < n`, in the scan order of the nested
pass-A loops. -/
def pairListUpTo (n : Nat) : List (Nat × Nat) :=
  (List.range n).flatMap fun i =>
    ((List.range n).filter fun j => i < j).map fun j => (i, j)

/-- The pass-A swap test at a pair of indices: more `best`-level
(unboosted score ≥ 10) members after the swap, or equally many and a
strictly larger summed score. -/
def shouldSwapA (assignments : List Assignment) (i j : Nat) : Bool :=
  let a := assignments.getD i dummyAssignment
  let b := assignments.getD j dummyAssignment
  let scoreAatA := uScore a.employee a.position
  let scoreBatB := uScore b.employee b.position
  let scoreAatB := uScore a.employee b.position
  let scoreBatA := uScore b.employee a.position
  let currentBestCount :=
    (if scoreAatA ≥ 10 then 1 else 0) + (if scoreBatB ≥ 10 then 1 else 0)
  let swappedBestCount :=
    (if scoreAatB ≥ 10 then 1 else 0) + (if scoreBatA ≥ 10 then 1 else 0)
  decide (swappedBestCount > currentBestCount) ||
    (decide (swappedBestCount = currentBestCount) &&
      decide (scoreAatB + scoreBatA > scoreAatA + scoreBatB))

/-- One pass-A scan: the first (in nested-loop order) non-special pair
that passes the swap test. -/
def findSwapA (assignments : List Assignment) : Option (Nat × Nat) :=
  (pairListUpTo assignments.length).find? fun p =>
    !isSpecialPosition (assignments.getD p.1 dummyAssignment).position &&
    !isSpecialPosition (assignments.getD p.2 dummyAssignment).position &&
    shouldSwapA assignments p.1 p.2

/-- Perform the pass-A swap at `(i, j)`: exchange the two workers and
recompute both labels from the unboosted scores. -/
def applySwapA (assignments : List Assignment) (i j : Nat) : List Assignment :=
  let a := assignments.getD i dummyAssignment
  let b := assignments.getD j dummyAssignment
  let scoreAatB := uScore a.employee b.position
  let scoreBatA := uScore b.employee a.position
  (assignments.set i
    { a with employee := b.employee, matchQuality := qualityOf scoreBatA }).set j
    { b with employee := a.employee, matchQuality := qualityOf scoreAatB }

/-- The capped pass-A loop (`while (improved && iterations < 100)`):
returns the final assignment list together with the number of scan
iterations performed. -/
def optimizeA : Nat → List Assignment → List Assignment × Nat
  | 0, assignments => (assignments, 0)
  | fuel + 1, assignments =>
    match findSwapA assignments with
    | none => (assignments, 1)
    | some (i, j) =>
      let r := optimizeA fuel (applySwapA assignments i j)
      (r.1, r.2 + 1)

/-- One pass-B scan: the first pair `(i, j)` (nested-loop order: any `i`
at a non-special, non-`best` slot, any `j ≠ i` holding `extra/support`)
where the extra worker would score ≥ 10 unboosted at slot `i`. -/
def findSwapB (assignments : List Assignment) : Option (Nat × Nat) :=
  ((List.range assignments.length).flatMap fun i =>
    ((List.range assignments.length).filter fun j => j ≠ i).map
      fun j => (i, j)).find? fun p =>
      let cur := assignments.getD p.1 dummyAssignment
      let other := assignments.getD p.2 dummyAssignment
      !isSpecialPosition cur.position &&
      !(cur.matchQuality == str "best") &&
      other.position == extraLabel &&
      decide (uScore other.employee cur.position ≥ 10)

/-- Perform the pass-B extraction swap at `(i, j)`: promote the extra
worker to slot `i` with label `best`, demote the displaced worker to
`extra/support` with label `extra`. -/
def applySwapB (assignments : List Assignment) (i j : Nat) : List Assignment :=
  let cur := assignments.getD i dummyAssignment
  let other := assignments.getD j dummyAssignment
  (assignments.set i
    { cur with employee := other.employee, matchQuality := str "best" }).set j
    { other with employee := cur.employee, matchQuality := str "extra" }

/-- The capped pass-B loop, with its iteration count. -/
def optimizeB : Nat → List Assignment → List Assignment × Nat
  | 0, assignments => (assignments, 0)
  | fuel + 1, assignments =>
    match findSwapB assignments with
    | none => (assignments, 1)
    | some (i, j) =>
      let r := optimizeB fuel (applySwapB assignments i j)
      (r.1, r.2 + 1)

/-- The `positionOrder` display map, built in JS write order (later writes
override; the list is reversed so that `lookup` sees the last write). -/
def positionOrderMap (filteredPositions : List Str) : List (Str × Int) :=
  ([ (leadLabel, -3), (boosterLabel, -2), (trainingLabel, -1),
     (str "buns (lead)", -1) ]
    ++ filteredPositions.enum.map (fun (p : Nat × Str) => (p.2, (p.1 : Int)))
    ++ [ (extraLabel, 999) ]).reverse

/-- `positionOrder[a.position] ?? 999`. -/
def positionOrderOf (orderMap : List (Str × Int)) (position : Str) : Int :=
  (orderMap.lookup position).getD 999

/-- `assignEmployeesToPositions`: extract role-flagged workers, greedily
fill the priority-sorted slots, append extras, run the two optimizer
passes, and stable-sort for display.  (`isDinnerRush startTime` is
computed by the JS but unused.) -/
def assignEmployeesToPositions (workingEmployees : List Employee)
    (positions : List Str) (startTime : Str)
    (previousAssignments : List (Option Str × Str) := [])
    (positionPriorityMap : Option (List (Str × Int)) := none) :
    List Assignment :=
  let _dinnerRush := isDinnerRush startTime
  let filteredPositions := filterRealPositions positions
  let lp := extractFlagged (·.isShiftLead) workingEmployees
  let leadAssignments := lp.1.map fun e =>
    ({ employee := e, position := leadLabel, matchQuality := str "best" } :
      Assignment)
  let bp := extractFlagged (·.isBooster) lp.2
  let boosterAssignments := bp.1.map fun e =>
    ({ employee := e, position := boosterLabel, matchQuality := str "best" } :
      Assignment)
  let tp := extractFlagged (·.isInTraining) bp.2
  let traineeAssignments := tp.1.map fun e =>
    ({ employee := e, position := trainingLabel,
       matchQuality := str "training" } : Assignment)
  let assignments0 := leadAssignments ++ boosterAssignments ++ traineeAssignments
  let sortedPositions := (filteredPositions.map fun pos =>
      (pos, getPositionPriority pos positionPriorityMap)).insertionSort
    (fun a b => a.2 ≤ b.2)
  let filled := greedyFill previousAssignments (sortedPositions.map (·.1))
    tp.2 assignments0
  let assignments2 := filled.1 ++ filled.2.map fun e =>
    ({ employee := e, position := extraLabel, matchQuality := str "extra" } :
      Assignment)
  let assignments3 := (optimizeA 100 assignments2).1
  let assignments4 := (optimizeB 100 assignments3).1
  let orderMap := positionOrderMap filteredPositions
  assignments4.insertionSort
    (fun a b => positionOrderOf orderMap a.position ≤
      positionOrderOf orderMap b.position)

/-! ## Lineup generation -/

/-- Merge each shift assignment with the matching employee record
(`{...assignment, ...employee, name: assignment.name || employee.name}`);
a missing record contributes nothing (no skills, adult, no id). -/
def enrichAssignments (shiftAssignments : List ShiftWindow)
    (employees : List EmployeeRec) : List Employee :=
  shiftAssignments.map fun assignment =>
    match employees.find? (fun e => e.id == assignment.employeeId) with
    | some employee =>
      { employeeId := assignment.employeeId, id := employee.id,
        name := orS assignment.name employee.name,
        startTime := assignment.startTime, endTime := assignment.endTime,
        positions := employee.positions,
        bestPositions := employee.bestPositions,
        isMinor := employee.isMinor,
        isShiftLead := assignment.isShiftLead,
        isBooster := assignment.isBooster,
        isInTraining := assignment.isInTraining }
    | none =>
      { employeeId := assignment.employeeId, id := none,
        name := orS assignment.name none,
        startTime := assignment.startTime, endTime := assignment.endTime,
        positions := [], bestPositions := [], isMinor := false,
        isShiftLead := assignment.isShiftLead,
        isBooster := assignment.isBooster,
        isInTraining := assignment.isInTraining }

/-- `positionPriorityMap[pos.name] = pos.priority || 99`, in catalog
order (reversed for last-write-wins lookup). -/
def buildPriorityMap (dbPositions : List PositionRec) : List (Str × Int) :=
  (dbPositions.map fun pos => (pos.name, priorityOr99 pos.priority)).reverse

/-- Rebuild `previousAssignments` from an interval's output. -/
def prevFromAssignments (assignments : List Assignment) :
    List (Option Str × Str) :=
  (assignments.map fun a => (empIdOf a.employee, a.position)).reverse

/-- Attach break flags to an assignment, from the first enriched window
matching the worker by id or name. -/
def addBreakFlags (enriched : List Employee) (a : Assignment) : Assignment :=
  match enriched.find? (fun ea =>
      ea.employeeId == a.employee.employeeId || ea.name == a.employee.name) with
  | some originalAssignment =>
    let breakInfo := calculateBreakFlags a.employee
      originalAssignment.startTime originalAssignment.endTime
    { a with needsBreak := breakInfo.1, breakType := breakInfo.2 }
  | none => { a with needsBreak := false, breakType := none }

/-- The body of one iteration of the `generateLineups` interval loop:
`none` when the interval is skipped, otherwise the produced lineup and
the updated previous-assignments map. -/
def lineupStep (enriched : List Employee)
    (dbPositions : Option (List PositionRec))
    (positionPriorityMap : List (Str × Int))
    (previousAssignments : List (Option Str × Str))
    (startMinutes endMinutes : Nat) :
    Option (Lineup × List (Option Str × Str)) :=
  let startTime := minutesToTime startMinutes
  let endTime := minutesToTime endMinutes
  let workingEmployees := getWorkingEmployees enriched startMinutes
  match getShiftPeriod startTime with
  | none => none
  | some shiftPeriod =>
    if workingEmployees.isEmpty then none
    else
      let positionsToUse : Option (List Str) :=
        dbPositions.bind fun db =>
          if db.isEmpty then none
          else (getPositionsForPeriod db shiftPeriod).map (·.positions)
      match positionsToUse with
      | none => none
      | some pos =>
        if pos.isEmpty then none
        else
          let assignments := assignEmployeesToPositions workingEmployees pos
            startTime previousAssignments (some positionPriorityMap)
          let assignmentsWithBreaks := assignments.map (addBreakFlags enriched)
          some ({ startTime := startTime, endTime := endTime,
                  shiftPeriod := shiftPeriod,
                  peopleCount := workingEmployees.length,
                  positionsUsed := pos.length,
                  extraPeople := workingEmployees.length - pos.length,
                  assignments := assignmentsWithBreaks },
                prevFromAssignments assignments)

/-- The interval loop over consecutive change points. -/
def genLoop (enriched : List Employee)
    (dbPositions : Option (List PositionRec))
    (positionPriorityMap : List (Str × Int)) :
    List Nat → List (Option Str × Str) → List Lineup
  | t1 :: t2 :: rest, previousAssignments =>
    match lineupStep enriched dbPositions positionPriorityMap
        previousAssignments t1 t2 with
    | some r => r.1 :: genLoop enriched dbPositions positionPriorityMap
        (t2 :: rest) r.2
    | none => genLoop enriched dbPositions positionPriorityMap
        (t2 :: rest) previousAssignments
  | _, _ => []

/-! ## Closing lineup -/

/-- The per-worker closing score for one (lowercased) closing slot name:
+50 when the worker's last-interval position (lowercased, with
`" (floating)"`/`" (lead)"` markers removed) equals or contains the slot
name, plus 10 for a best-skill match or else 5 for a capable-skill match
(both exact, case-insensitive). -/
def closingScore (employeeCurrentPositions : List (Option Str × Str))
    (employee : Employee) (positionLower : Str) : Nat :=
  let currentPos := (employeeCurrentPositions.lookup (empIdOf employee)).getD []
  let s1 := if currentPos == positionLower ||
      strIncludes currentPos positionLower then 50 else 0
  let s2 := if employee.bestPositions.any (fun p => lowerStr p == positionLower)
    then 10
    else if employee.positions.any (fun p => lowerStr p == positionLower)
    then 5 else 0
  s1 + s2

/-- The closing argmax scan (`bestScore` starts at −1, strict improvement,
first maximum wins). -/
def closingPickLoop (employeeCurrentPositions : List (Option Str × Str))
    (positionLower : Str) :
    List Employee → Nat → Option (Nat × Employee) → Int →
      Option (Nat × Employee)
  | [], _, best, _ => best
  | employee :: rest, j, best, bestScore =>
    let score := closingScore employeeCurrentPositions employee positionLower
    if (score : Int) > bestScore then
      closingPickLoop employeeCurrentPositions positionLower rest (j + 1)
        (some (j, employee)) (score : Int)
    else
      closingPickLoop employeeCurrentPositions positionLower rest (j + 1)
        best bestScore

/-- The closing assignment loop over the priority-sorted closing slots. -/
def closingAssignLoop (employeeCurrentPositions : List (Option Str × Str)) :
    List Str → List Employee → List Assignment →
      List Assignment × List Employee
  | [], pool, acc => (acc, pool)
  | position :: rest, pool, acc =>
    let positionLower := lowerStr position
    match closingPickLoop employeeCurrentPositions positionLower pool 0
        none (-1) with
    | some (bestIndex, bestEmployee) =>
      let bestScore := closingScore employeeCurrentPositions bestEmployee
        positionLower
      closingAssignLoop employeeCurrentPositions rest (pool.eraseIdx bestIndex)
        (acc ++ [{ employee := bestEmployee, position := position,
                   matchQuality :=
                     if bestScore ≥ 50 then str "best"
                     else if bestScore ≥ 5 then str "capable"
                     else str "fallback" }])
    | none => closingAssignLoop employeeCurrentPositions rest pool acc

/-- The last-interval position map used by the closing builder:
worker key ↦ lowercased position with the `" (floating)"`/`" (lead)"`
markers removed (first occurrence each, in that order), later entries
overriding earlier ones. -/
def employeeCurrentPositionsOf (lastLineup : Lineup) :
    List (Option Str × Str) :=
  (lastLineup.assignments.map fun assignment =>
    (empIdOf assignment.employee,
     replaceFirst (str " (lead)")
       (replaceFirst (str " (floating)")
         (lowerStr assignment.position)))).reverse

/-- The closing slot names: `requiresClosing` catalog entries sorted by
`priority || 99`. -/
def closingPositionNames (dbPositions : Option (List PositionRec)) :
    List Str :=
  (((dbPositions.getD []).filter (·.requiresClosing)).insertionSort
    (fun a b => priorityOr99 a.priority ≤ priorityOr99 b.priority)).map
    (·.name)

/-- `generateClosingLineup`: closers are the workers whose window ends at
the last lineup's end time; closing slots are the `requiresClosing`
catalog entries sorted by priority.  (A JS call with a `null` catalog and
a nonempty lineups list would throw, but `generateLineups` can never
produce that combination; `getD []` gives the same observable result.) -/
def generateClosingLineup (lineups : List Lineup)
    (enrichedAssignments : List Employee)
    (dbPositions : Option (List PositionRec)) : Option ClosingLineup :=
  match lineups.getLast? with
  | none => none
  | some lastLineup =>
    let lastEndTime := lastLineup.endTime
    let closingEmployees := enrichedAssignments.filter
      fun emp => emp.endTime == lastEndTime
    if closingEmployees.isEmpty then none
    else
      let closingPositions := closingPositionNames dbPositions
      if closingPositions.isEmpty then none
      else
        let employeeCurrentPositions := employeeCurrentPositionsOf lastLineup
        let filled := closingAssignLoop employeeCurrentPositions
          closingPositions closingEmployees []
        let closingAssignments := filled.1 ++ filled.2.map fun employee =>
          ({ employee := employee, position := str "available",
             matchQuality := str "extra" } : Assignment)
        some { title := str "Closing", assignments := closingAssignments,
               peopleCount := closingAssignments.length }

/-- The result bundle of `generateLineups`. -/
structure GenerateResult where
  lineups : List Lineup
  closingLineup : Option ClosingLineup
deriving DecidableEq, Repr

/-- `generateLineups`: enrich the windows, partition the day at the change
points, produce one lineup per non-skipped interval (threading the
previous-assignments map), and derive the closing lineup. -/
def generateLineups (shiftAssignments : List ShiftWindow)
    (employees : List EmployeeRec)
    (dbPositions : Option (List PositionRec) := none) : GenerateResult :=
  let enrichedAssignments := enrichAssignments shiftAssignments employees
  let changePoints := getChangePoints enrichedAssignments
  let positionPriorityMap :=
    match dbPositions with
    | some db => buildPriorityMap db
    | none => []
  let lineups := genLoop enrichedAssignments dbPositions positionPriorityMap
    changePoints []
  { lineups := lineups,
    closingLineup := generateClosingLineup lineups enrichedAssignments
      dbPositions }

/-! ## Specification-side definitions

The definitions in this section are written from the *claims* (the
specification text), not from the source; the theorems below compare them
with the source-side definitions above. -/

/-- Claim C3, base term: max over the slot's alternatives of 10 / 5 / 0
according to `bestPositions` / `positions` membership. -/
def baseScoreSpec (employee : Employee) (position : Str) : Nat :=
  (((splitOnChar '/' position).map fun alt =>
    if employee.bestPositions.contains alt then 10
    else if employee.positions.contains alt then 5
    else 0)).foldr max 0

/-- Claim C3, checklist term: if boosting and the worker holds a
`"checklist"` skill and the slot's first alternative is `"buns"` or
`"machines"`, +15; if `"secondary2"`, +12; else 0. -/
def checklistBonusSpec (employee : Employee) (position : Str)
    (boostChecklistPositions : Bool) : Nat :=
  if boostChecklistPositions &&
      (employee.positions.contains (str "checklist")
        || employee.bestPositions.contains (str "checklist")) then
    let first := (splitOnChar '/' position).headD []
    if first = str "buns" ∨ first = str "machines" then 15
    else if first = str "secondary2" then 12
    else 0
  else 0

/-- Remove `pat` from the end of `s` when it is a suffix (else leave `s`
unchanged). -/
def stripSuffix (pat : Str) (s : Str) : Str :=
  if pat.isSuffixOf s then s.take (s.length - pat.length) else s

/-- Claim C3 as stated: the previous-position base name obtained by
*suffix*-stripping `" (lead)"` and `" (floating)"` and taking the first
alternative. -/
def prevBaseSpec (prev : Str) : Str :=
  (splitOnChar '/'
    (stripSuffix (str " (floating)") (stripSuffix (str " (lead)") prev))).headD []

/-- The previous-position base name as the code computes it: remove the
*first occurrence* of `" (lead)"`, then of `" (floating)"`, then take the
first alternative.  (For well-formed labels, which only carry these
markers as suffixes, this agrees with `prevBaseSpec`.) -/
def prevBaseFirstOcc (prev : Str) : Str :=
  (splitOnChar '/'
    (replaceFirst (str " (floating)")
      (replaceFirst (str " (lead)") prev))).headD []

/-- Claim C3, continuity term (as stated, with suffix stripping): +20 when
the previous base name is among the slot's alternatives. -/
def continuityBonusSpec (position : Str) (previousPosition : Option Str) :
    Nat :=
  match previousPosition with
  | some prev =>
    if (splitOnChar '/' position).contains (prevBaseSpec prev) then 20 else 0
  | none => 0

/-- Amended continuity term: same, but with first-occurrence marker
removal (matching the code's `String.replace` semantics). -/
def continuityBonusAmended (position : Str) (previousPosition : Option Str) :
    Nat :=
  match previousPosition with
  | some prev =>
    if (splitOnChar '/' position).contains (prevBaseFirstOcc prev) then 20
    else 0
  | none => 0

/-- Claim C3's reference scoring function, exactly as stated. -/
def scoreSpec (employee : Employee) (position : Str)
    (boostChecklistPositions : Bool) (previousPosition : Option Str) : Nat :=
  baseScoreSpec employee position
    + checklistBonusSpec employee position boostChecklistPositions
    + continuityBonusSpec position previousPosition

/-- The amended reference scoring function (first-occurrence marker
removal instead of suffix stripping). -/
def scoreSpecAmended (employee : Employee) (position : Str)
    (boostChecklistPositions : Bool) (previousPosition : Option Str) : Nat :=
  baseScoreSpec employee position
    + checklistBonusSpec employee position boostChecklistPositions
    + continuityBonusAmended position previousPosition

/-- The minimum of a list of integers (`dflt` for the empty list, which
cannot occur for `"/"`-alternative lists). -/
def listMinInt (l : List Int) (dflt : Int) : Int :=
  match l with
  | [] => dflt
  | x :: xs => xs.foldl min x

/-- Claim C7's reference value: the minimum of the alternatives'
individual priorities. -/
def minAltPriorities (position : Str)
    (positionPriorityMap : Option (List (Str × Int))) : Int :=
  listMinInt ((splitOnChar '/' position).map
    (lookupAltPriority positionPriorityMap)) 99

/-- Claim C8's sort key as stated: the integer priority when set, 99 only
when unset. -/
def sortKeySpec (p : PositionRec) : Int :=
  match p.priority with
  | some v => v
  | none => 99

/-- Claim C8's filter predicate: the slot's applicable periods contain
`"all"` or the target period. -/
def appliesToPeriod (p : PositionRec) (shiftPeriod : Str) : Prop :=
  (str "all") ∈ p.timePeriods.getD [str "all"]
    ∨ shiftPeriod ∈ p.timePeriods.getD [str "all"]

instance (p : PositionRec) (shiftPeriod : Str) :
    Decidable (appliesToPeriod p shiftPeriod) := by
  unfold appliesToPeriod
  exact inferInstance

/-- Claim C4's swap criterion at a pair of indices, written from the
claim: comparing unboosted scores of each worker at their own slot versus
the other's, the swap strictly increases the number of pair members
scoring ≥ 10, or leaves that count unchanged and strictly increases the
summed score. -/
def swapImproves (assignments : List Assignment) (i j : Nat) : Prop :=
  let a := assignments.getD i dummyAssignment
  let b := assignments.getD j dummyAssignment
  let ownBest := (if uScore a.employee a.position ≥ 10 then 1 else 0)
    + (if uScore b.employee b.position ≥ 10 then 1 else 0)
  let swapBest := (if uScore a.employee b.position ≥ 10 then 1 else 0)
    + (if uScore b.employee a.position ≥ 10 then 1 else 0)
  swapBest > ownBest ∨
    (swapBest = ownBest ∧
      uScore a.employee b.position + uScore b.employee a.position
        > uScore a.employee a.position + uScore b.employee b.position)

/-- An assignment the optimizer treats as ordinary (swappable): its
position mentions neither `lead` nor `booster` and is not the training or
extra label. -/
def ordinaryAt (assignments : List Assignment) (i : Nat) : Prop :=
  isSpecialPosition (assignments.getD i dummyAssignment).position = false

/-- Claim C6's closing score exactly as stated: +50 when the worker's
last-interval base position and the slot name match case-insensitively
*with substring matching in either direction*, plus 10/5 for a best/
capable skill match. -/
def closingScoreSpecBoth (employeeCurrentPositions : List (Option Str × Str))
    (employee : Employee) (positionLower : Str) : Nat :=
  let currentPos := (employeeCurrentPositions.lookup (empIdOf employee)).getD []
  let s1 := if currentPos = positionLower ∨ List.IsInfix positionLower currentPos
      ∨ List.IsInfix currentPos positionLower then 50 else 0
  let s2 := if employee.bestPositions.any (fun p => lowerStr p == positionLower)
    then 10
    else if employee.positions.any (fun p => lowerStr p == positionLower)
    then 5 else 0
  s1 + s2

/-- The amended closing score: the substring test only goes one way — the
slot's (lowercased) name must occur inside the worker's last-interval
base position. -/
def closingScoreAmended (employeeCurrentPositions : List (Option Str × Str))
    (employee : Employee) (positionLower : Str) : Nat :=
  let currentPos := (employeeCurrentPositions.lookup (empIdOf employee)).getD []
  let s1 := if currentPos = positionLower ∨ List.IsInfix positionLower currentPos
    then 50 else 0
  let s2 := if employee.bestPositions.any (fun p => lowerStr p == positionLower)
    then 10
    else if employee.positions.any (fun p => lowerStr p == positionLower)
    then 5 else 0
  s1 + s2

/-- Closing quality thresholds: `best` at ≥ 50, `capable` at ≥ 5, else
`fallback`. -/
def closingQuality (s : Nat) : Str :=
  if s ≥ 50 then str "best" else if s ≥ 5 then str "capable" else str "fallback"

/-- `e` is the first maximiser of `score` in `pool`, at index `j`:
everything before it scores strictly less, everything after it scores no
more. -/
def isFirstMax (score : Employee → Nat) (pool : List Employee) (j : Nat)
    (e : Employee) : Prop :=
  ∃ pre post, pool = pre ++ e :: post ∧ j = pre.length ∧
    (∀ x ∈ pre, score x < score e) ∧ (∀ x ∈ post, score x ≤ score e)

/-- Claim C6's per-slot selection process, as a relation: for each closing
slot in order, the first maximum-scoring worker (amended score) is
assigned with the threshold quality and removed from the pool; a slot
with an empty pool is skipped; the final pool is returned. -/
inductive ClosingAssignRel
    (employeeCurrentPositions : List (Option Str × Str)) :
    List Str → List Employee → List Assignment → List Employee → Prop
  | nil (pool : List Employee) : ClosingAssignRel employeeCurrentPositions [] pool [] pool
  | skip (position : Str) (rest : List Str) (out : List Assignment)
      (poolF : List Employee)
      (h : ClosingAssignRel employeeCurrentPositions rest [] out poolF) :
      ClosingAssignRel employeeCurrentPositions (position :: rest) [] out poolF
  | pick (position : Str) (rest : List Str) (pool : List Employee)
      (j : Nat) (e : Employee) (out : List Assignment) (poolF : List Employee)
      (hmax : isFirstMax
        (fun w => closingScoreAmended employeeCurrentPositions w
          (lowerStr position)) pool j e)
      (hrest : ClosingAssignRel employeeCurrentPositions rest
        (pool.eraseIdx j) out poolF) :
      ClosingAssignRel employeeCurrentPositions (position :: rest) pool
        ({ employee := e, position := position,
           matchQuality := closingQuality
             (closingScoreAmended employeeCurrentPositions e
               (lowerStr position)) } :: out) poolF

/-! ## Basic lemmas about the string utilities -/

theorem splitOnChar_ne_nil (sep : Char) : ∀ l : Str, splitOnChar sep l ≠ []
  | [] => by simp [splitOnChar]
  | c :: rest => by
    simp only [splitOnChar]
    split
    · simp
    · rcases h : splitOnChar sep rest with _ | ⟨a, t⟩
      · exact absurd h (splitOnChar_ne_nil sep rest)
      · simp [h]

theorem sep_not_mem_of_mem_splitOnChar {sep : Char} :
    ∀ {l p : Str}, p ∈ splitOnChar sep l → sep ∉ p := by
  intro l
  induction l with
  | nil =>
    intro p hp
    simp [splitOnChar] at hp
    simp [hp]
  | cons c rest ih =>
    intro p hp
    simp only [splitOnChar] at hp
    by_cases hc : c = sep
    · simp only [if_pos hc] at hp
      rcases List.mem_cons.mp hp with rfl | hp
      · simp
      · exact ih hp
    · simp only [if_neg hc] at hp
      rcases h : splitOnChar sep rest with _ | ⟨a, t⟩
      · exact absurd h (splitOnChar_ne_nil sep rest)
      · rw [h] at hp
        rcases List.mem_cons.mp hp with rfl | hp
        · intro hmem
          rcases List.mem_cons.mp hmem with rfl | hmem
          · exact hc rfl
          · exact ih (h ▸ List.mem_cons_self a t) hmem
        · exact ih (h ▸ List.mem_cons.mpr (Or.inr hp))

theorem splitOnChar_of_not_mem {sep : Char} :
    ∀ {l : Str}, sep ∉ l → splitOnChar sep l = [l] := by
  intro l
  induction l with
  | nil => intro _; rfl
  | cons c rest ih =>
    intro h
    have hc : ¬c = sep := fun hcs => h (hcs ▸ List.mem_cons_self c rest)
    have hrest : sep ∉ rest := fun hm => h (List.mem_cons.mpr (Or.inr hm))
    simp only [splitOnChar, if_neg hc, ih hrest]

theorem headD_mem {α : Type u} {l : List α} (h : l ≠ []) (d : α) :
    l.headD d ∈ l := by
  cases l with
  | nil => exact absurd rfl h
  | cons a t => simp

/-- The head of a `splitOnChar` result never contains the separator. -/
theorem sep_not_mem_splitOnChar_headD {sep : Char} (l : Str) :
    sep ∉ (splitOnChar sep l).headD [] :=
  sep_not_mem_of_mem_splitOnChar
    (headD_mem (splitOnChar_ne_nil sep l) [])

/-! ## C3: the scoring function -/

theorem foldl_max_eq (l : List Nat) :
    ∀ a : Nat, l.foldl max a = max a (l.foldr max 0) := by
  induction l with
  | nil => intro a; simp
  | cons x xs ih =>
    intro a
    simp only [List.foldl_cons, List.foldr_cons, ih, Nat.max_assoc]

theorem baseScore_foldl_eq (e : Employee) (opts : List Str) :
    opts.foldl
      (fun bestScore pos =>
        if e.bestPositions.contains pos then max bestScore 10
        else if e.positions.contains pos then max bestScore 5
        else bestScore)
      0 =
    ((opts.map fun alt =>
      if e.bestPositions.contains alt then (10 : Nat)
      else if e.positions.contains alt then 5
      else 0)).foldr max 0 := by
  have hcong : ∀ a : Nat, opts.foldl
      (fun bestScore pos =>
        if e.bestPositions.contains pos then max bestScore 10
        else if e.positions.contains pos then max bestScore 5
        else bestScore) a =
      opts.foldl
        (fun bestScore pos => max bestScore
          (if e.bestPositions.contains pos then (10 : Nat)
           else if e.positions.contains pos then 5 else 0)) a := by
    induction opts with
    | nil => intro a; rfl
    | cons o os ih =>
      intro a
      simp only [List.foldl_cons]
      by_cases h1 : e.bestPositions.contains o
      · simp only [if_pos h1, ih]
      · by_cases h2 : e.positions.contains o
        · simp only [if_neg h1, if_pos h2, ih]
        · simp only [if_neg h1, if_neg h2, ih, Nat.max_eq_left (Nat.zero_le a)]
  rw [hcong, ← List.foldl_map, foldl_max_eq]
  simp

/-- The continuity condition of the code (`currOptions.includes(prevBase)
|| prevBase === position`) collapses to plain membership: a `prevBase`
that equals the whole (slash-containing) position name cannot arise,
because `prevBase` is itself an alternative and so slash-free. -/
theorem continuity_cond_eq (position pb : Str) (hpb : '/' ∉ pb) :
    ((splitOnChar '/' position).contains pb || decide (pb = position)) =
      (splitOnChar '/' position).contains pb := by
  by_cases h : pb = position
  · subst h
    have : splitOnChar '/' pb = [pb] := splitOnChar_of_not_mem hpb
    simp [this]
  · simp [h]

/-- Case analysis of the `checklistPositionPriority` lookup against the
claim's phrasing of the specialist-pull bonus. -/
theorem checklist_lookup_cases (first : Str) :
    (match List.lookup first checklistPositionPriority with
      | some p => (if p = (1 : Int) then (15 : Nat) else 12)
      | none => 0) =
    (if first = str "buns" ∨ first = str "machines" then (15 : Nat)
     else if first = str "secondary2" then 12 else 0) := by
  by_cases h1 : first = str "buns"
  · subst h1; decide
  · by_cases h2 : first = str "machines"
    · subst h2; decide
    · by_cases h3 : first = str "secondary2"
      · subst h3; decide
      · have hnone : List.lookup first checklistPositionPriority = none := by
          simp only [checklistPositionPriority, List.lookup]
          rw [beq_eq_false_iff_ne.mpr h1, beq_eq_false_iff_ne.mpr h2,
            beq_eq_false_iff_ne.mpr h3]
        rw [hnone]
        simp [h1, h2, h3]

/-- C3 (counterexample): the claim's reference scoring function, which
*suffix*-strips the `" (lead)"`/`" (floating)"` markers, disagrees with
the code on a previous position carrying the marker in the middle: the
code removes the *first occurrence* anywhere (`String.replace`), so for
`previousPosition = "a (lead) b"` and slot `"a b"` the code grants the
+20 continuity bonus while the claim's reference gives 0. -/
theorem scoreEmployeeForPosition_ne_scoreSpec :
    scoreEmployeeForPosition dummyEmployee (str "a b") false
        (some (str "a (lead) b")) = 20 ∧
    scoreSpec dummyEmployee (str "a b") false (some (str "a (lead) b")) = 0 ∧
    ¬ (scoreEmployeeForPosition dummyEmployee (str "a b") false
          (some (str "a (lead) b")) =
        scoreSpec dummyEmployee (str "a b") false (some (str "a (lead) b"))) := by
  refine ⟨by decide, by decide, by decide⟩

/-- C3 (amended): the scoring function equals the reference definition in
which the `" (lead)"`/`" (floating)"` markers are removed at their first
occurrence (as JS `String.replace` does) rather than as suffixes; on
marker-as-suffix inputs the two coincide.  The result is a `Nat`, hence
trivially a non-negative integer. -/
theorem scoreEmployeeForPosition_eq_scoreSpecAmended
    (employee : Employee) (position : Str) (boostChecklistPositions : Bool)
    (previousPosition : Option Str) :
    scoreEmployeeForPosition employee position boostChecklistPositions
        previousPosition =
      scoreSpecAmended employee position boostChecklistPositions
        previousPosition := by
  unfold scoreEmployeeForPosition scoreSpecAmended
  dsimp only
  rw [baseScore_foldl_eq]
  set base := (((splitOnChar '/' position).map fun alt =>
    if employee.bestPositions.contains alt then (10 : Nat)
    else if employee.positions.contains alt then 5
    else 0)).foldr max 0 with hbase
  have key := checklist_lookup_cases ((splitOnChar '/' position).headD [])
  have hchecklist :
      (if boostChecklistPositions then
        if employee.positions.contains (str "checklist")
            || employee.bestPositions.contains (str "checklist") then
          match List.lookup ((splitOnChar '/' position).headD [])
              checklistPositionPriority with
          | some p => base + (if p = 1 then 15 else 12)
          | none => base
        else base
      else base) =
      base + checklistBonusSpec employee position boostChecklistPositions := by
    unfold checklistBonusSpec
    by_cases hb : boostChecklistPositions
    · by_cases hcs : (employee.positions.contains (str "checklist")
          || employee.bestPositions.contains (str "checklist")) = true
      · have hcs2 : str "checklist" ∈ employee.positions
            ∨ str "checklist" ∈ employee.bestPositions := by simpa using hcs
        rw [← key]
        cases hl : List.lookup ((splitOnChar '/' position).headD [])
            checklistPositionPriority with
        | some p => simp [hb, hcs2, hl]
        | none => simp [hb, hcs2, hl]
      · have hcs2 : ¬(str "checklist" ∈ employee.positions
            ∨ str "checklist" ∈ employee.bestPositions) := by
          simpa using hcs
        simp [hb, hcs2]
    · simp only [Bool.not_eq_true] at hb
      simp [hb]
  rw [hchecklist]
  cases previousPosition with
  | none => simp [continuityBonusAmended, baseScoreSpec, hbase]
  | some prev =>
    simp only [continuityBonusAmended]
    have hpb : '/' ∉ (splitOnChar '/'
        (replaceFirst (str " (floating)")
          (replaceFirst (str " (lead)") prev))).headD [] :=
      sep_not_mem_splitOnChar_headD _
    rw [continuity_cond_eq position _ hpb]
    have hbs : base = baseScoreSpec employee position := by
      rw [hbase]; rfl
    rw [← hbs]
    unfold prevBaseFirstOcc
    split
    · omega
    · omega

/-! ## C7: effective priority of combined position names -/

theorem if_lt_eq_min (h p : Int) : (if p < h then p else h) = min h p := by
  rw [min_def]
  split_ifs <;> omega

theorem foldl_min_eq_min_foldl (l : List Int) :
    ∀ a b : Int, l.foldl min (min a b) = min a (l.foldl min b) := by
  induction l with
  | nil => intro a b; rfl
  | cons c cs ih =>
    intro a b
    simp only [List.foldl_cons, min_assoc, ih]

theorem foldl_if_lt_eq_min (f : Str → Int) :
    ∀ (l : List Str) (a : Int),
      l.foldl (fun hi opt => if f opt < hi then f opt else hi) a =
        l.foldl (fun hi opt => min hi (f opt)) a := by
  intro l
  induction l with
  | nil => intro a; rfl
  | cons x xs ih =>
    intro a
    simp only [List.foldl_cons, if_lt_eq_min, ih]

/-- C7 (counterexample): the fold computing `getPositionPriority` starts
at 99 and only ever lowers, so an alternative whose set priority exceeds
99 is ignored: for a slot `"a"` with set priority 150 the effective
priority is 99, not the claimed minimum 150. -/
theorem getPositionPriority_ne_minAltPriorities :
    getPositionPriority (str "a") (some [(str "a", 150)]) = 99 ∧
    minAltPriorities (str "a") (some [(str "a", 150)]) = 150 ∧
    ¬ (getPositionPriority (str "a") (some [(str "a", 150)]) =
        minAltPriorities (str "a") (some [(str "a", 150)])) :=
  ⟨by decide, by decide, by decide⟩

/-- C7 (amended): the effective priority of a `"/"`-combined position
name equals the minimum of its alternatives' individual priorities (set
value, or the default table / 99 when unset), additionally capped above
at the default 99 that the fold starts from. -/
theorem getPositionPriority_eq_min99_minAlt (position : Str)
    (positionPriorityMap : Option (List (Str × Int))) :
    getPositionPriority position positionPriorityMap =
      min 99 (minAltPriorities position positionPriorityMap) := by
  unfold getPositionPriority minAltPriorities listMinInt
  rcases h : splitOnChar '/' position with _ | ⟨x, xs⟩
  · exact absurd h (splitOnChar_ne_nil _ _)
  · dsimp only
    rw [foldl_if_lt_eq_min (lookupAltPriority positionPriorityMap)]
    have : ∀ (l : List Str) (a : Int),
        l.foldl (fun hi opt =>
          min hi (lookupAltPriority positionPriorityMap opt)) a =
        (l.map (lookupAltPriority positionPriorityMap)).foldl min a := by
      intro l
      induction l with
      | nil => intro a; rfl
      | cons y ys ih => intro a; simp only [List.foldl_cons, List.map_cons, ih]
    rw [this, List.map_cons, List.foldl_cons, foldl_min_eq_min_foldl]

/-! ## C5: iteration caps of the optimizer passes -/

theorem optimizeA_snd_le : ∀ (fuel : Nat) (assignments : List Assignment),
    (optimizeA fuel assignments).2 ≤ fuel := by
  intro fuel
  induction fuel with
  | zero => intro as; simp [optimizeA]
  | succ n ih =>
    intro as
    rcases h : findSwapA as with _ | ⟨i, j⟩
    · simp [optimizeA, h]
    · simpa [optimizeA, h] using ih (applySwapA as i j)

theorem optimizeA_stops : ∀ (fuel : Nat) (assignments : List Assignment),
    (optimizeA fuel assignments).2 < fuel →
      findSwapA (optimizeA fuel assignments).1 = none := by
  intro fuel
  induction fuel with
  | zero => intro as h; simp [optimizeA] at h
  | succ n ih =>
    intro as h
    rcases hf : findSwapA as with _ | ⟨i, j⟩
    · simp [optimizeA, hf]
    · simp only [optimizeA, hf] at h ⊢
      exact ih (applySwapA as i j) (by omega)

theorem optimizeA_of_none {assignments : List Assignment} (fuel : Nat)
    (h : findSwapA assignments = none) :
    optimizeA (fuel + 1) assignments = (assignments, 1) := by
  simp [optimizeA, h]

theorem optimizeB_of_none {assignments : List Assignment} (fuel : Nat)
    (h : findSwapB assignments = none) :
    optimizeB (fuel + 1) assignments = (assignments, 1) := by
  simp [optimizeB, h]

theorem optimizeB_snd_le : ∀ (fuel : Nat) (assignments : List Assignment),
    (optimizeB fuel assignments).2 ≤ fuel := by
  intro fuel
  induction fuel with
  | zero => intro as; simp [optimizeB]
  | succ n ih =>
    intro as
    rcases h : findSwapB as with _ | ⟨i, j⟩
    · simp [optimizeB, h]
    · simpa [optimizeB, h] using ih (applySwapB as i j)

theorem optimizeB_stops : ∀ (fuel : Nat) (assignments : List Assignment),
    (optimizeB fuel assignments).2 < fuel →
      findSwapB (optimizeB fuel assignments).1 = none := by
  intro fuel
  induction fuel with
  | zero => intro as h; simp [optimizeB] at h
  | succ n ih =>
    intro as h
    rcases hf : findSwapB as with _ | ⟨i, j⟩
    · simp [optimizeB, hf]
    · simp only [optimizeB, hf] at h ⊢
      exact ih (applySwapB as i j) (by omega)

/-- C5: both optimizer passes are iteration-capped at 100 — as run by
`assignEmployeesToPositions` (which uses `(optimizeA 100 ·).1` and
`(optimizeB 100 ·).1`), each pass performs at most 100 scan iterations;
a pass that stops below its cap does so only because its final scan found
no improving swap; and a pass whose very first scan finds no swap leaves
the assignment list unchanged.  Termination for every input is witnessed
by these total functions themselves. -/
theorem optimizer_iteration_cap (assignments : List Assignment) :
    (optimizeA 100 assignments).2 ≤ 100 ∧
    ((optimizeA 100 assignments).2 < 100 →
      findSwapA (optimizeA 100 assignments).1 = none) ∧
    (findSwapA assignments = none →
      (optimizeA 100 assignments).1 = assignments) ∧
    (optimizeB 100 assignments).2 ≤ 100 ∧
    ((optimizeB 100 assignments).2 < 100 →
      findSwapB (optimizeB 100 assignments).1 = none) ∧
    (findSwapB assignments = none →
      (optimizeB 100 assignments).1 = assignments) :=
  ⟨optimizeA_snd_le 100 assignments,
   optimizeA_stops 100 assignments,
   fun h => by rw [show (100 : Nat) = 99 + 1 from rfl, optimizeA_of_none 99 h],
   optimizeB_snd_le 100 assignments,
   optimizeB_stops 100 assignments,
   fun h => by rw [show (100 : Nat) = 99 + 1 from rfl, optimizeB_of_none 99 h]⟩

/-- C5 (witness): the cap theorem applied to the empty assignment list,
whose first scan finds no swap. -/
theorem optimizer_iteration_cap_witness :
    (optimizeA 100 ([] : List Assignment)).2 ≤ 100 ∧
    findSwapA (optimizeA 100 ([] : List Assignment)).1 = none ∧
    (optimizeA 100 ([] : List Assignment)).1 = [] ∧
    (optimizeB 100 ([] : List Assignment)).2 ≤ 100 ∧
    findSwapB (optimizeB 100 ([] : List Assignment)).1 = none ∧
    (optimizeB 100 ([] : List Assignment)).1 = [] :=
  ⟨(optimizer_iteration_cap []).1,
   (optimizer_iteration_cap []).2.1 (by decide),
   (optimizer_iteration_cap []).2.2.1 (by decide),
   (optimizer_iteration_cap []).2.2.2.1,
   (optimizer_iteration_cap []).2.2.2.2.1 (by decide),
   (optimizer_iteration_cap []).2.2.2.2.2 (by decide)⟩

/-! ## C8: the position resolver -/

/-- `orderedInsert` by a key either prepends the inserted element to the
key-class filter or leaves the filter unchanged: the elements it skips
have strictly smaller keys, so they never share the inserted element's
key class. -/
theorem orderedInsert_filter_key {α : Type u} (key : α → Int) (k : Int)
    (x : α) : ∀ s : List α,
    ((s.orderedInsert (fun a b => key a ≤ key b) x).filter
      (fun a => key a == k)) =
      if key x = k then x :: s.filter (fun a => key a == k)
      else s.filter (fun a => key a == k) := by
  intro s
  induction s with
  | nil =>
    by_cases hx : key x = k
    · simp [List.orderedInsert, List.filter_cons, hx]
    · simp [List.orderedInsert, List.filter_cons, hx]
  | cons y ys ih =>
    by_cases hr : key x ≤ key y
    · rw [List.orderedInsert_of_le (fun a b => key a ≤ key b) ys hr]
      by_cases hx : key x = k
      · simp [List.filter_cons, hx]
      · simp [List.filter_cons, hx]
    · have horder : (List.orderedInsert (fun a b => key a ≤ key b) x (y :: ys))
          = y :: List.orderedInsert (fun a b => key a ≤ key b) x ys := by
        simp only [List.orderedInsert]
        rw [if_neg hr]
      rw [horder]
      have hy : ¬(key x = k ∧ key y = k) := by
        rintro ⟨h1, h2⟩
        exact hr (by omega)
      by_cases hx : key x = k
      · have hyk : ¬ key y = k := fun h => hy ⟨hx, h⟩
        simp only [List.filter_cons, beq_iff_eq, hyk, if_neg (by simpa using hyk),
          ih, hx, if_pos rfl]
        simp [hyk]
      · simp only [List.filter_cons, ih, hx]
        simp [hx]

/-- Stability of the key-based insertion sort: each key class of the
output is exactly the key class of the input, in input order. -/
theorem insertionSort_filter_key {α : Type u} (key : α → Int) (k : Int) :
    ∀ l : List α,
    ((l.insertionSort (fun a b => key a ≤ key b)).filter
      (fun a => key a == k)) = l.filter (fun a => key a == k) := by
  intro l
  induction l with
  | nil => rfl
  | cons x xs ih =>
    simp only [List.insertionSort, orderedInsert_filter_key, List.filter_cons]
    by_cases hx : key x = k
    · simp [hx, ih]
    · simp [hx, ih]

theorem filterPositions_eq_claim_filter (dbPositions : List PositionRec)
    (shiftPeriod : Str) :
    filterPositionsByTimePeriod dbPositions shiftPeriod =
      dbPositions.filter (fun p => decide (appliesToPeriod p shiftPeriod)) := by
  unfold filterPositionsByTimePeriod
  apply List.filter_congr
  intro p _
  simp [appliesToPeriod]

/-- C8 (counterexample): a slot with `priority` *set to 0* gets sort key
99, because `a.priority || 99` treats 0 as falsy — so the claimed key
("its integer priority when set and 99 only when unset") is wrong: with
slots A (priority 0) and B (priority 50), the resolver returns `[B, A]`,
which is not sorted by the claimed key (0 before 50). -/
theorem getPositionsForPeriod_violates_sortKeySpec :
    (getPositionsForPeriod
        [{ name := str "A", priority := some 0,
           timePeriods := some [str "all"] },
         { name := str "B", priority := some 50,
           timePeriods := some [str "all"] }] (str "morning")).map
      (·.positionData) =
      some [{ name := str "B", priority := some 50,
              timePeriods := some [str "all"] },
            { name := str "A", priority := some 0,
              timePeriods := some [str "all"] }] ∧
    ¬ List.Sorted (fun a b => sortKeySpec a ≤ sortKeySpec b)
      [({ name := str "B", priority := some 50,
          timePeriods := some [str "all"] } : PositionRec),
       { name := str "A", priority := some 0,
         timePeriods := some [str "all"] }] :=
  ⟨by decide, by decide⟩

/-- C8 (amended): on a nonempty catalog the resolver returns exactly the
slots whose applicable periods contain `"all"` or the target period
(with multiplicity), stable-sorted ascending by the key
`priority || 99` — the set priority, except that an *unset or zero*
priority becomes 99 (JS `||` treats 0 as falsy); ties keep catalog
order; the name list is the data list's names.  An empty catalog yields
`none`. -/
theorem position_resolver_spec (dbPositions : List PositionRec)
    (shiftPeriod : Str) :
    (dbPositions = [] → getPositionsForPeriod dbPositions shiftPeriod = none) ∧
    (dbPositions ≠ [] → ∃ r, getPositionsForPeriod dbPositions shiftPeriod
        = some r ∧
      r.positionData.Perm (dbPositions.filter
        fun p => decide (appliesToPeriod p shiftPeriod)) ∧
      List.Sorted (fun a b => priorityOr99 a.priority ≤ priorityOr99 b.priority)
        r.positionData ∧
      (∀ k : Int, r.positionData.filter (fun p => priorityOr99 p.priority == k)
        = (dbPositions.filter fun p => decide (appliesToPeriod p shiftPeriod)).filter
            (fun p => priorityOr99 p.priority == k)) ∧
      r.positions = r.positionData.map (·.name)) := by
  constructor
  · intro h
    subst h
    rfl
  · intro h
    have hne : dbPositions.isEmpty = false := by
      cases dbPositions with
      | nil => exact absurd rfl h
      | cons a t => rfl
    refine ⟨⟨((filterPositionsByTimePeriod dbPositions shiftPeriod).insertionSort
        (fun a b => priorityOr99 a.priority ≤ priorityOr99 b.priority)).map
        (·.name),
      (filterPositionsByTimePeriod dbPositions shiftPeriod).insertionSort
        (fun a b => priorityOr99 a.priority ≤ priorityOr99 b.priority)⟩,
      by simp [getPositionsForPeriod, hne], ?_, ?_, ?_, rfl⟩
    · rw [← filterPositions_eq_claim_filter]
      exact List.perm_insertionSort _ _
    · haveI : IsTotal PositionRec
          (fun a b => priorityOr99 a.priority ≤ priorityOr99 b.priority) :=
        ⟨fun a b => le_total _ _⟩
      haveI : IsTrans PositionRec
          (fun a b => priorityOr99 a.priority ≤ priorityOr99 b.priority) :=
        ⟨fun a b c hab hbc => le_trans hab hbc⟩
      exact List.sorted_insertionSort _ _
    · intro k
      rw [← filterPositions_eq_claim_filter]
      exact insertionSort_filter_key
        (fun (p : PositionRec) => priorityOr99 p.priority) k _

/-- C8 (witness): the resolver theorem applied to a one-slot catalog. -/
theorem position_resolver_spec_witness :
    ∃ r, getPositionsForPeriod
        [{ name := str "B", priority := some 50,
           timePeriods := some [str "all"] }] (str "morning") = some r ∧
      r.positionData.Perm
        ([{ name := str "B", priority := some 50,
            timePeriods := some [str "all"] }].filter
          fun p => decide (appliesToPeriod p (str "morning"))) ∧
      List.Sorted (fun a b => priorityOr99 a.priority ≤ priorityOr99 b.priority)
        r.positionData ∧
      (∀ k : Int, r.positionData.filter (fun p => priorityOr99 p.priority == k)
        = ([{ name := str "B", priority := some 50,
              timePeriods := some [str "all"] }].filter
            fun p => decide (appliesToPeriod p (str "morning"))).filter
              (fun p => priorityOr99 p.priority == k)) ∧
      r.positions = r.positionData.map (·.name) :=
  (position_resolver_spec
    [{ name := str "B", priority := some 50,
       timePeriods := some [str "all"] }] (str "morning")).2 (by decide)

/-! ## Decomposing `generateLineups` -/

def dummyLineup : Lineup :=
  { startTime := [], endTime := [], shiftPeriod := [], peopleCount := 0,
    positionsUsed := 0, extraPeople := 0, assignments := [] }

theorem generateLineups_lineups_eq (shiftAssignments : List ShiftWindow)
    (employees : List EmployeeRec) (dbPositions : Option (List PositionRec)) :
    (generateLineups shiftAssignments employees dbPositions).lineups =
      genLoop (enrichAssignments shiftAssignments employees) dbPositions
        (match dbPositions with
         | some db => buildPriorityMap db
         | none => [])
        (getChangePoints (enrichAssignments shiftAssignments employees)) [] :=
  rfl

/-- Every lineup in the interval loop's output comes from a successful
`lineupStep` at some change point of the list. -/
theorem mem_genLoop {enriched : List Employee}
    {db : Option (List PositionRec)} {pm : List (Str × Int)} :
    ∀ {pts : List Nat} {prev : List (Option Str × Str)} {L : Lineup},
      L ∈ genLoop enriched db pm pts prev →
      ∃ t1 t2 prev0 r, lineupStep enriched db pm prev0 t1 t2 = some r ∧
        L = r.1 ∧ t1 ∈ pts := by
  intro pts
  induction pts with
  | nil => intro prev L h; simp [genLoop] at h
  | cons t ts ih =>
    intro prev L h
    cases ts with
    | nil => simp [genLoop] at h
    | cons t2 rest =>
      rcases hstep : lineupStep enriched db pm prev t t2 with _ | r
      · rw [genLoop, hstep] at h
        obtain ⟨u1, u2, prev0, r, h1, h2, h3⟩ := ih h
        exact ⟨u1, u2, prev0, r, h1, h2, List.mem_cons.mpr (Or.inr h3)⟩
      · rw [genLoop, hstep] at h
        rcases List.mem_cons.mp h with rfl | h
        · exact ⟨t, t2, prev, r, hstep, rfl, List.mem_cons_self _ _⟩
        · obtain ⟨u1, u2, prev0, r2, h1, h2, h3⟩ := ih h
          exact ⟨u1, u2, prev0, r2, h1, h2, List.mem_cons.mpr (Or.inr h3)⟩

/-- What a successful `lineupStep` produces. -/
theorem lineupStep_some {enriched : List Employee}
    {db : Option (List PositionRec)} {pm : List (Str × Int)}
    {prev : List (Option Str × Str)} {t1 t2 : Nat}
    {r : Lineup × List (Option Str × Str)}
    (h : lineupStep enriched db pm prev t1 t2 = some r) :
    ∃ shiftPeriod positionsToUse,
      getShiftPeriod (minutesToTime t1) = some shiftPeriod ∧
      getWorkingEmployees enriched t1 ≠ [] ∧
      positionsToUse ≠ [] ∧
      r.1 = { startTime := minutesToTime t1, endTime := minutesToTime t2,
              shiftPeriod := shiftPeriod,
              peopleCount := (getWorkingEmployees enriched t1).length,
              positionsUsed := positionsToUse.length,
              extraPeople := (getWorkingEmployees enriched t1).length
                - positionsToUse.length,
              assignments := (assignEmployeesToPositions
                (getWorkingEmployees enriched t1) positionsToUse
                (minutesToTime t1) prev (some pm)).map
                (addBreakFlags enriched) } := by
  unfold lineupStep at h
  dsimp only at h
  rcases hsp : getShiftPeriod (minutesToTime t1) with _ | sp
  · rw [hsp] at h; exact absurd h (by simp)
  · rw [hsp] at h
    dsimp only at h
    by_cases hwe : (getWorkingEmployees enriched t1).isEmpty
    · rw [if_pos hwe] at h; exact absurd h (by simp)
    · rw [if_neg hwe] at h
      rcases hpos : (db.bind fun dbl =>
          if dbl.isEmpty then none
          else (getPositionsForPeriod dbl sp).map (·.positions)) with _ | pos
      · rw [hpos] at h; exact absurd h (by simp)
      · rw [hpos] at h
        dsimp only at h
        by_cases hpe : pos.isEmpty
        · rw [if_pos hpe] at h; exact absurd h (by simp)
        · rw [if_neg hpe] at h
          refine ⟨sp, pos, rfl, ?_, ?_, ?_⟩
          · intro hnil; rw [hnil] at hwe; exact hwe rfl
          · intro hnil; rw [hnil] at hpe; exact hpe rfl
          · rw [← Option.some.inj h]

/-! ## Sample inputs used by the concrete witnesses -/

def sampleEmployees : List EmployeeRec :=
  [ { id := some (str "e1"), name := some (str "Ann"),
      positions := [str "primary", str "buns"],
      bestPositions := [str "primary"] },
    { id := some (str "e2"), name := some (str "Bob"),
      positions := [str "buns"], bestPositions := [], isMinor := true } ]

def sampleShifts : List ShiftWindow :=
  [ { employeeId := some (str "e1"), name := some (str "Ann"),
      startTime := str "10:00", endTime := str "18:00" },
    { employeeId := some (str "e2"), name := some (str "Bob"),
      startTime := str "10:00", endTime := str "14:00" } ]

def samplePositions : List PositionRec :=
  [ { name := str "primary", priority := some 1,
      timePeriods := some [str "all"], requiresClosing := true },
    { name := str "buns", priority := some 2,
      timePeriods := some [str "all"] } ]

def sampleLineup0 : Lineup :=
  ((generateLineups sampleShifts sampleEmployees
    (some samplePositions)).lineups).headD dummyLineup

/-! ## C9: the break rule evaluator -/

theorem addBreakFlags_employee (enriched : List Employee) (b : Assignment) :
    (addBreakFlags enriched b).employee = b.employee := by
  unfold addBreakFlags
  rcases hfind : enriched.find? (fun ea =>
      ea.employeeId == b.employee.employeeId
        || ea.name == b.employee.name) with _ | w
  · rw [hfind]
  · rw [hfind]

theorem addBreakFlags_pair (enriched : List Employee) (b : Assignment) :
    ((addBreakFlags enriched b).needsBreak,
      (addBreakFlags enriched b).breakType) =
      match enriched.find? (fun ea =>
          ea.employeeId == b.employee.employeeId
            || ea.name == b.employee.name) with
      | some w => calculateBreakFlags b.employee w.startTime w.endTime
      | none => (false, none) := by
  unfold addBreakFlags
  rcases hfind : enriched.find? (fun ea =>
      ea.employeeId == b.employee.employeeId
        || ea.name == b.employee.name) with _ | w
  · rw [hfind]
  · rw [hfind]

/-- Evaluate `hoursWorked` at concrete minute values. -/
theorem hw_eval (st en : Str) (a b : Nat) (hst : timeToMinutes st = a)
    (hen : timeToMinutes en = b) :
    hoursWorked st en = ((b : Rat) - (a : Rat)) / 60 := by
  unfold hoursWorked minutesWorked
  rw [hst, hen]
  norm_num

set_option maxHeartbeats 1000000 in
/-- C9: in every produced lineup, each assignment's break flags are
computed by `calculateBreakFlags` from the worker's original shift-window
times (the first enriched window matching the worker by id or name), not
from the interval's span; and `calculateBreakFlags` classifies by
`hoursWorked = (end - start)/60` with thresholds: minors `required` iff
≥ 4.5 h, else `optional` iff ≥ 4 h, else no break; adults `required` iff
≥ 7.5 h, else `optional` iff ≥ 7 h, else no break. -/
theorem break_rule_evaluator (shiftAssignments : List ShiftWindow)
    (employees : List EmployeeRec) (dbPositions : Option (List PositionRec)) :
    (∀ L ∈ (generateLineups shiftAssignments employees dbPositions).lineups,
      ∀ a ∈ L.assignments,
      (a.needsBreak, a.breakType) =
        match (enrichAssignments shiftAssignments employees).find? (fun ea =>
            ea.employeeId == a.employee.employeeId
              || ea.name == a.employee.name) with
        | some w => calculateBreakFlags a.employee w.startTime w.endTime
        | none => (false, none)) ∧
    (∀ (e : Employee) (st en : Str),
      (e.isMinor = true →
        (calculateBreakFlags e st en = (true, some (str "required")) ↔
          hoursWorked st en ≥ 9/2) ∧
        (calculateBreakFlags e st en = (true, some (str "optional")) ↔
          (4 ≤ hoursWorked st en ∧ hoursWorked st en < 9/2)) ∧
        (calculateBreakFlags e st en = (false, none) ↔
          hoursWorked st en < 4)) ∧
      (e.isMinor = false →
        (calculateBreakFlags e st en = (true, some (str "required")) ↔
          hoursWorked st en ≥ 15/2) ∧
        (calculateBreakFlags e st en = (true, some (str "optional")) ↔
          (7 ≤ hoursWorked st en ∧ hoursWorked st en < 15/2)) ∧
        (calculateBreakFlags e st en = (false, none) ↔
          hoursWorked st en < 7))) := by
  constructor
  · intro L hL a ha
    rw [generateLineups_lineups_eq] at hL
    obtain ⟨t1, t2, prev0, r, hstep, rfl, -⟩ := mem_genLoop hL
    obtain ⟨sp, pos, -, -, -, hr⟩ := lineupStep_some hstep
    rw [hr] at ha
    obtain ⟨b, -, rfl⟩ := List.mem_map.mp ha
    rw [addBreakFlags_employee]
    exact addBreakFlags_pair _ _
  · intro e st en
    have key : ∀ (q : Rat) (a : Int), 60 * q = (a : Rat) →
        (q ≤ hoursWorked st en ↔ a ≤ minutesWorked st en) := by
      intro q a hqa
      unfold hoursWorked
      constructor
      · intro h
        have h2 : q * 60 ≤ (minutesWorked st en : Rat) :=
          (le_div_iff₀ (by norm_num)).mp h
        rw [mul_comm, hqa] at h2
        exact_mod_cast h2
      · intro h
        apply (le_div_iff₀ (by norm_num)).mpr
        rw [mul_comm, hqa]
        exact_mod_cast h
    have e1 := key (9/2) 270 (by norm_num)
    have e2 := key 4 240 (by norm_num)
    have e3 := key (15/2) 450 (by norm_num)
    have e4 := key 7 420 (by norm_num)
    constructor
    · intro hm
      unfold calculateBreakFlags
      dsimp only
      rw [hm]
      simp only [if_true]
      split_ifs with h1 h2
      · refine ⟨⟨fun _ => e1.mpr h1, fun _ => rfl⟩,
          ⟨fun heq => absurd heq (by decide),
           fun hc => absurd (e1.mpr h1) (not_le.mpr hc.2)⟩,
          ⟨fun heq => absurd heq (by decide),
           fun hc => absurd (e2.mpr (by omega)) (not_le.mpr hc)⟩⟩
      · refine ⟨⟨fun heq => absurd heq (by decide),
           fun hc => absurd (e1.mp hc) h1⟩,
          ⟨fun _ => ⟨e2.mpr h2, lt_of_not_ge fun hge => h1 (e1.mp hge)⟩,
           fun _ => rfl⟩,
          ⟨fun heq => absurd heq (by decide),
           fun hc => absurd (e2.mpr h2) (not_le.mpr hc)⟩⟩
      · refine ⟨⟨fun heq => absurd heq (by decide),
           fun hc => absurd (e1.mp hc) h1⟩,
          ⟨fun heq => absurd heq (by decide),
           fun hc => absurd (e2.mp hc.1) h2⟩,
          ⟨fun _ => lt_of_not_ge fun hge => h2 (e2.mp hge), fun _ => rfl⟩⟩
    · intro hm
      unfold calculateBreakFlags
      dsimp only
      rw [hm]
      simp only [Bool.false_eq_true, if_false]
      split_ifs with h1 h2
      · refine ⟨⟨fun _ => e3.mpr h1, fun _ => rfl⟩,
          ⟨fun heq => absurd heq (by decide),
           fun hc => absurd (e3.mpr h1) (not_le.mpr hc.2)⟩,
          ⟨fun heq => absurd heq (by decide),
           fun hc => absurd (e4.mpr (by omega)) (not_le.mpr hc)⟩⟩
      · refine ⟨⟨fun heq => absurd heq (by decide),
           fun hc => absurd (e3.mp hc) h1⟩,
          ⟨fun _ => ⟨e4.mpr h2, lt_of_not_ge fun hge => h1 (e3.mp hge)⟩,
           fun _ => rfl⟩,
          ⟨fun heq => absurd heq (by decide),
           fun hc => absurd (e4.mpr h2) (not_le.mpr hc)⟩⟩
      · refine ⟨⟨fun heq => absurd heq (by decide),
           fun hc => absurd (e3.mp hc) h1⟩,
          ⟨fun heq => absurd heq (by decide),
           fun hc => absurd (e4.mp hc.1) h2⟩,
          ⟨fun _ => lt_of_not_ge fun hge => h2 (e4.mp hge), fun _ => rfl⟩⟩

/-- C9 (witness): the threshold part at the claim's example shift lengths
(adult 7.4 h → optional, 7.6 h → required; minor 4.6 h → required,
3.9 h → none), and the wiring part at the sample day's first assignment. -/
theorem break_rule_evaluator_witness :
    calculateBreakFlags dummyEmployee (str "10:00") (str "17:24")
      = (true, some (str "optional")) ∧
    calculateBreakFlags dummyEmployee (str "10:00") (str "17:36")
      = (true, some (str "required")) ∧
    calculateBreakFlags { dummyEmployee with isMinor := true }
      (str "10:00") (str "14:36") = (true, some (str "required")) ∧
    calculateBreakFlags { dummyEmployee with isMinor := true }
      (str "10:00") (str "13:54") = (false, none) ∧
    ((sampleLineup0.assignments.headD dummyAssignment).needsBreak,
      (sampleLineup0.assignments.headD dummyAssignment).breakType) =
      match (enrichAssignments sampleShifts sampleEmployees).find? (fun ea =>
          ea.employeeId ==
            (sampleLineup0.assignments.headD dummyAssignment).employee.employeeId
            || ea.name ==
              (sampleLineup0.assignments.headD dummyAssignment).employee.name) with
      | some w => calculateBreakFlags
          (sampleLineup0.assignments.headD dummyAssignment).employee
          w.startTime w.endTime
      | none => (false, none) :=
  ⟨(((break_rule_evaluator [] [] none).2 dummyEmployee (str "10:00")
      (str "17:24")).2 rfl).2.1.mpr
      (by rw [hw_eval (str "10:00") (str "17:24") 600 1044 (by decide) (by decide)]; norm_num),
   (((break_rule_evaluator [] [] none).2 dummyEmployee (str "10:00")
      (str "17:36")).2 rfl).1.mpr
      (by rw [hw_eval (str "10:00") (str "17:36") 600 1056 (by decide) (by decide)]; norm_num),
   (((break_rule_evaluator [] [] none).2 { dummyEmployee with isMinor := true }
      (str "10:00") (str "14:36")).1 rfl).1.mpr
      (by rw [hw_eval (str "10:00") (str "14:36") 600 876 (by decide) (by decide)]; norm_num),
   (((break_rule_evaluator [] [] none).2 { dummyEmployee with isMinor := true }
      (str "10:00") (str "13:54")).1 rfl).2.2.mpr
      (by rw [hw_eval (str "10:00") (str "13:54") 600 834 (by decide) (by decide)]; norm_num),
   (break_rule_evaluator sampleShifts sampleEmployees
      (some samplePositions)).1 sampleLineup0 (by decide)
      (sampleLineup0.assignments.headD dummyAssignment) (by decide)⟩

/-! ## C4: the pass-A swap rule -/

theorem mem_pairListUpTo {n i j : Nat} :
    (i, j) ∈ pairListUpTo n ↔ i < j ∧ j < n := by
  unfold pairListUpTo
  simp only [List.mem_flatMap, List.mem_map, List.mem_filter, List.mem_range,
    decide_eq_true_eq]
  constructor
  · rintro ⟨i0, hi0, j0, ⟨hj0n, hij⟩, heq⟩
    obtain ⟨rfl, rfl⟩ := Prod.mk.injEq .. ▸ And.intro
      (congrArg Prod.fst heq) (congrArg Prod.snd heq)
    exact ⟨hij, hj0n⟩
  · rintro ⟨hij, hjn⟩
    exact ⟨i, lt_trans hij hjn, j, ⟨hjn, hij⟩, rfl⟩

theorem shouldSwapA_iff (assignments : List Assignment) (i j : Nat) :
    shouldSwapA assignments i j = true ↔ swapImproves assignments i j := by
  unfold shouldSwapA swapImproves
  dsimp only
  rw [Bool.or_eq_true, Bool.and_eq_true]
  simp [decide_eq_true_eq]

theorem findSwapA_none_iff (assignments : List Assignment) :
    findSwapA assignments = none ↔
      ∀ i j, i < j → j < assignments.length → ordinaryAt assignments i →
        ordinaryAt assignments j → ¬ swapImproves assignments i j := by
  unfold findSwapA
  rw [List.find?_eq_none]
  constructor
  · intro h i j hij hjn oi oj himp
    unfold ordinaryAt at oi oj
    have hmem : (i, j) ∈ pairListUpTo assignments.length :=
      mem_pairListUpTo.mpr ⟨hij, hjn⟩
    apply h (i, j) hmem
    dsimp only
    rw [oi, oj, (shouldSwapA_iff assignments i j).mpr himp]
    rfl
  · intro h p hp
    rcases p with ⟨i, j⟩
    obtain ⟨hij, hjn⟩ := mem_pairListUpTo.mp hp
    intro hptrue
    dsimp only at hptrue
    rw [Bool.and_eq_true, Bool.and_eq_true] at hptrue
    obtain ⟨⟨o1, o2⟩, hs⟩ := hptrue
    rw [Bool.not_eq_true'] at o1 o2
    exact h i j hij hjn o1 o2 ((shouldSwapA_iff assignments i j).mp hs)

theorem findSwapA_some {assignments : List Assignment} {i j : Nat}
    (h : findSwapA assignments = some (i, j)) :
    i < j ∧ j < assignments.length ∧ ordinaryAt assignments i ∧
      ordinaryAt assignments j ∧ swapImproves assignments i j := by
  unfold findSwapA at h
  have hmem := List.mem_of_find?_eq_some h
  have hpred := List.find?_some h
  obtain ⟨hij, hjn⟩ := mem_pairListUpTo.mp hmem
  rw [Bool.and_eq_true, Bool.and_eq_true] at hpred
  obtain ⟨⟨o1, o2⟩, hs⟩ := hpred
  rw [Bool.not_eq_true'] at o1 o2
  exact ⟨hij, hjn, o1, o2, (shouldSwapA_iff assignments i j).mp hs⟩

theorem applySwapA_getD {assignments : List Assignment} {i j : Nat}
    (hi : i < assignments.length) (hj : j < assignments.length) (hij : i ≠ j) :
    (applySwapA assignments i j).getD i dummyAssignment =
      { assignments.getD i dummyAssignment with
        employee := (assignments.getD j dummyAssignment).employee,
        matchQuality := qualityOf
          (uScore (assignments.getD j dummyAssignment).employee
            (assignments.getD i dummyAssignment).position) } ∧
    (applySwapA assignments i j).getD j dummyAssignment =
      { assignments.getD j dummyAssignment with
        employee := (assignments.getD i dummyAssignment).employee,
        matchQuality := qualityOf
          (uScore (assignments.getD i dummyAssignment).employee
            (assignments.getD j dummyAssignment).position) } ∧
    (∀ k, k ≠ i → k ≠ j →
      (applySwapA assignments i j).getD k dummyAssignment =
        assignments.getD k dummyAssignment) := by
  unfold applySwapA
  dsimp only
  refine ⟨?_, ?_, ?_⟩
  · rw [List.getD_eq_getElem?_getD, List.getElem?_set_ne (by omega),
      List.getElem?_set_self', List.getElem?_eq_getElem hi]
    rfl
  · rw [List.getD_eq_getElem?_getD, List.getElem?_set_self',
      List.getElem?_set_ne (by omega), List.getElem?_eq_getElem hj]
    rfl
  · intro k hki hkj
    rw [List.getD_eq_getElem?_getD, List.getElem?_set_ne (by omega),
      List.getElem?_set_ne (by omega), ← List.getD_eq_getElem?_getD]

/-- C4: one scan of optimizer pass A finds no pair exactly when no
ordinary pair (no `lead`/`booster`-marked, training, or extra label)
satisfies the swap criterion — strictly more pair members with unboosted
score ≥ 10 after the swap, or equally many and a strictly larger summed
unboosted score; and when it finds the pair `(i, j)`, that pair is
ordinary and satisfies the criterion, and the applied swap exchanges the
two workers in place, recomputing both labels from the unboosted scores
(≥ 10 → `best`, ≥ 5 → `capable`, else `fallback`) and leaving every other
assignment unchanged. -/
theorem passA_swap_rule (assignments : List Assignment) :
    (findSwapA assignments = none ↔
      ∀ i j, i < j → j < assignments.length → ordinaryAt assignments i →
        ordinaryAt assignments j → ¬ swapImproves assignments i j) ∧
    (∀ i j, findSwapA assignments = some (i, j) →
      i < j ∧ j < assignments.length ∧ ordinaryAt assignments i ∧
        ordinaryAt assignments j ∧ swapImproves assignments i j ∧
        (applySwapA assignments i j).getD i dummyAssignment =
          { assignments.getD i dummyAssignment with
            employee := (assignments.getD j dummyAssignment).employee,
            matchQuality := qualityOf
              (uScore (assignments.getD j dummyAssignment).employee
                (assignments.getD i dummyAssignment).position) } ∧
        (applySwapA assignments i j).getD j dummyAssignment =
          { assignments.getD j dummyAssignment with
            employee := (assignments.getD i dummyAssignment).employee,
            matchQuality := qualityOf
              (uScore (assignments.getD i dummyAssignment).employee
                (assignments.getD j dummyAssignment).position) } ∧
        (∀ k, k ≠ i → k ≠ j →
          (applySwapA assignments i j).getD k dummyAssignment =
            assignments.getD k dummyAssignment)) := by
  refine ⟨findSwapA_none_iff assignments, ?_⟩
  intro i j h
  obtain ⟨hij, hjn, oi, oj, himp⟩ := findSwapA_some h
  obtain ⟨g1, g2, g3⟩ := applySwapA_getD (lt_trans hij hjn) hjn (Nat.ne_of_lt hij)
  exact ⟨hij, hjn, oi, oj, himp, g1, g2, g3⟩

/-- A two-assignment list with an improving pass-A swap: the worker at
`"primary"` only knows `"buns"` (score 0 at own slot, 5 at the other) and
the worker at `"buns"` is best at `"primary"` (0 at own slot, 10 at the
other), so swapping raises the pair's `best` count from 0 to 1. -/
def swapExample : List Assignment :=
  [ { employee := { dummyEmployee with positions := [str "buns"] },
      position := str "primary", matchQuality := str "fallback" },
    { employee := { dummyEmployee with bestPositions := [str "primary"] },
      position := str "buns", matchQuality := str "capable" } ]

/-- C4 (witness): the swap-rule theorem applied to `swapExample`, whose
scan finds the pair `(0, 1)`. -/
theorem passA_swap_rule_witness :
    0 < 1 ∧ 1 < swapExample.length ∧ ordinaryAt swapExample 0 ∧
      ordinaryAt swapExample 1 ∧ swapImproves swapExample 0 1 ∧
      (applySwapA swapExample 0 1).getD 0 dummyAssignment =
        { swapExample.getD 0 dummyAssignment with
          employee := (swapExample.getD 1 dummyAssignment).employee,
          matchQuality := qualityOf
            (uScore (swapExample.getD 1 dummyAssignment).employee
              (swapExample.getD 0 dummyAssignment).position) } ∧
      (applySwapA swapExample 0 1).getD 1 dummyAssignment =
        { swapExample.getD 1 dummyAssignment with
          employee := (swapExample.getD 0 dummyAssignment).employee,
          matchQuality := qualityOf
            (uScore (swapExample.getD 0 dummyAssignment).employee
              (swapExample.getD 1 dummyAssignment).position) } ∧
      (∀ k, k ≠ 0 → k ≠ 1 →
        (applySwapA swapExample 0 1).getD k dummyAssignment =
          swapExample.getD k dummyAssignment) :=
  (passA_swap_rule swapExample).2 0 1 (by decide)

/-! ## C6: the closing roster builder -/

theorem closingScore_eq_amended (ecp : List (Option Str × Str))
    (e : Employee) (pl : Str) :
    closingScore ecp e pl = closingScoreAmended ecp e pl := by
  unfold closingScore closingScoreAmended strIncludes
  simp

theorem eraseIdx_append_length {α : Type u} (pre : List α) (e : α)
    (post : List α) :
    (pre ++ e :: post).eraseIdx pre.length = pre ++ post := by
  induction pre with
  | nil => rfl
  | cons a t ih => simpa using ih

/-- Invariant-based specification of the closing argmax scan. -/
theorem closingPickLoop_spec (ecp : List (Option Str × Str)) (pl : Str) :
    ∀ (pool seen : List Employee) (best : Option (Nat × Employee)) (bs : Int),
      ((best = none ∧ seen = [] ∧ bs = -1) ∨
        (∃ pre eb post, best = some (pre.length, eb) ∧
          seen = pre ++ eb :: post ∧
          bs = (closingScore ecp eb pl : Int) ∧
          (∀ x ∈ pre, closingScore ecp x pl < closingScore ecp eb pl) ∧
          (∀ x ∈ post, closingScore ecp x pl ≤ closingScore ecp eb pl))) →
      (match closingPickLoop ecp pl pool seen.length best bs with
        | none => seen ++ pool = []
        | some (j, e) =>
            isFirstMax (fun w => closingScore ecp w pl) (seen ++ pool) j e) := by
  intro pool
  induction pool with
  | nil =>
    intro seen best bs hinv
    rcases hinv with ⟨hb, hs, _⟩ | ⟨pre, eb, post, hb, hs, _, hpre, hpost⟩
    · subst hb hs
      simp [closingPickLoop]
    · subst hb hs
      simp only [closingPickLoop, List.append_nil]
      exact ⟨pre, post, rfl, rfl, hpre, hpost⟩
  | cons e rest ih =>
    intro seen best bs hinv
    simp only [closingPickLoop]
    split_ifs with hgt
    · have hlen : seen.length + 1 = (seen ++ [e]).length := by simp
      rw [hlen]
      have hnext := ih (seen ++ [e]) (some (seen.length, e))
        (closingScore ecp e pl : Int) (Or.inr ⟨seen, e, [], rfl, by simp, rfl,
          ?_, by simp⟩)
      · rw [List.append_assoc] at hnext
        simpa using hnext
      · intro x hx
        rcases hinv with ⟨hb, hs, hbs⟩ | ⟨pre, eb, post, hb, hs, hbs, hpre, hpost⟩
        · subst hs; simp at hx
        · subst hs hbs
          have hlt : closingScore ecp eb pl < closingScore ecp e pl := by
            exact_mod_cast hgt
          rcases List.mem_append.mp hx with hx | hx
          · exact lt_trans (hpre x hx) hlt
          · rcases List.mem_cons.mp hx with rfl | hx
            · exact hlt
            · exact lt_of_le_of_lt (hpost x hx) hlt
    · have hlen : seen.length + 1 = (seen ++ [e]).length := by simp
      rw [hlen]
      rcases hinv with ⟨hb, hs, hbs⟩ | ⟨pre, eb, post, hb, hs, hbs, hpre, hpost⟩
      · exfalso
        subst hbs
        exact hgt (by omega)
      · subst hb hs hbs
        have hle : closingScore ecp e pl ≤ closingScore ecp eb pl := by
          have := not_lt.mp hgt
          exact_mod_cast this
        have hnext := ih ((pre ++ eb :: post) ++ [e]) (some (pre.length, eb))
          (closingScore ecp eb pl : Int)
          (Or.inr ⟨pre, eb, post ++ [e], rfl, by simp, rfl, hpre, ?_⟩)
        · rw [List.append_assoc] at hnext
          simpa using hnext
        · intro x hx
          rcases List.mem_append.mp hx with hx | hx
          · exact hpost x hx
          · rcases List.mem_singleton.mp hx with rfl
            exact hle

theorem closingPickLoop_none {ecp : List (Option Str × Str)} {pl : Str}
    {pool : List Employee}
    (h : closingPickLoop ecp pl pool 0 none (-1) = none) : pool = [] := by
  have := closingPickLoop_spec ecp pl pool [] none (-1)
    (Or.inl ⟨rfl, rfl, rfl⟩)
  rw [show ([] : List Employee).length = 0 from rfl, h] at this
  simpa using this

theorem closingPickLoop_some {ecp : List (Option Str × Str)} {pl : Str}
    {pool : List Employee} {j : Nat} {e : Employee}
    (h : closingPickLoop ecp pl pool 0 none (-1) = some (j, e)) :
    isFirstMax (fun w => closingScore ecp w pl) pool j e := by
  have := closingPickLoop_spec ecp pl pool [] none (-1)
    (Or.inl ⟨rfl, rfl, rfl⟩)
  rw [show ([] : List Employee).length = 0 from rfl, h] at this
  simpa using this

/-- The closing assignment loop realises the claim's per-slot first-max
selection relation (with the amended one-direction substring scoring). -/
theorem closingAssignLoop_spec (ecp : List (Option Str × Str)) :
    ∀ (positions : List Str) (pool : List Employee),
      ∃ out poolF, ClosingAssignRel ecp positions pool out poolF ∧
        ∀ acc, closingAssignLoop ecp positions pool acc = (acc ++ out, poolF) := by
  intro positions
  induction positions with
  | nil =>
    intro pool
    exact ⟨[], pool, .nil pool, fun acc => by simp [closingAssignLoop]⟩
  | cons position rest ih =>
    intro pool
    rcases hpick : closingPickLoop ecp (lowerStr position) pool 0 none (-1)
      with _ | ⟨j, e⟩
    · have hpool : pool = [] := closingPickLoop_none hpick
      subst hpool
      obtain ⟨out, poolF, hrel, heq⟩ := ih []
      refine ⟨out, poolF, .skip position rest out poolF hrel, fun acc => ?_⟩
      simp only [closingAssignLoop, hpick]
      exact heq acc
    · have hmax := closingPickLoop_some hpick
      have hmax' : isFirstMax
          (fun w => closingScoreAmended ecp w (lowerStr position)) pool j e := by
        obtain ⟨pre, post, h1, h2, h3, h4⟩ := hmax
        refine ⟨pre, post, h1, h2, ?_, ?_⟩
        · intro x hx
          simpa [closingScore_eq_amended] using h3 x hx
        · intro x hx
          simpa [closingScore_eq_amended] using h4 x hx
      obtain ⟨out, poolF, hrel, heq⟩ := ih (pool.eraseIdx j)
      refine ⟨_, poolF,
        .pick position rest pool j e out poolF hmax' hrel, fun acc => ?_⟩
      simp only [closingAssignLoop, hpick]
      rw [heq]
      rw [show (if closingScore ecp e (lowerStr position) ≥ 50 then str "best"
          else if closingScore ecp e (lowerStr position) ≥ 5 then str "capable"
          else str "fallback") =
          closingQuality (closingScoreAmended ecp e (lowerStr position)) from by
        rw [closingScore_eq_amended]; rfl]
      simp

/-- C6 (amended): every produced closing lineup arises from the last
lineup as follows — the closing-eligible pool is exactly the enriched
windows ending at the last lineup's end time; the closing slots are the
`requiresClosing` catalog entries in priority order; slot by slot, the
*first* worker maximising the amended closing score (+50 when the
lowercased slot name equals or occurs *inside* the worker's last-interval
base position — one direction only — plus 10/5 for a best/capable exact
skill match) is assigned with quality `best`/`capable`/`fallback` at
thresholds 50/5 and removed from the pool; leftover closers follow,
labelled `available`/`extra`. -/
theorem closing_roster_builder_spec (lineups : List Lineup)
    (enrichedAssignments : List Employee)
    (dbPositions : Option (List PositionRec)) (cl : ClosingLineup)
    (h : generateClosingLineup lineups enrichedAssignments dbPositions
      = some cl) :
    ∃ lastLineup out poolF,
      lineups.getLast? = some lastLineup ∧
      (enrichedAssignments.filter
        fun emp => emp.endTime == lastLineup.endTime) ≠ [] ∧
      closingPositionNames dbPositions ≠ [] ∧
      ClosingAssignRel (employeeCurrentPositionsOf lastLineup)
        (closingPositionNames dbPositions)
        (enrichedAssignments.filter
          fun emp => emp.endTime == lastLineup.endTime) out poolF ∧
      cl.title = str "Closing" ∧
      cl.assignments = out ++ poolF.map (fun employee =>
        { employee := employee, position := str "available",
          matchQuality := str "extra" }) ∧
      cl.peopleCount = cl.assignments.length := by
  unfold generateClosingLineup at h
  rcases hlast : lineups.getLast? with _ | lastLineup
  · rw [hlast] at h; exact absurd h (by simp)
  · rw [hlast] at h
    dsimp only at h
    by_cases hce : (enrichedAssignments.filter
        fun emp => emp.endTime == lastLineup.endTime).isEmpty
    · rw [if_pos hce] at h; exact absurd h (by simp)
    · rw [if_neg hce] at h
      by_cases hcp : (closingPositionNames dbPositions).isEmpty
      · rw [if_pos hcp] at h; exact absurd h (by simp)
      · rw [if_neg hcp] at h
        obtain ⟨out, poolF, hrel, heq⟩ :=
          closingAssignLoop_spec (employeeCurrentPositionsOf lastLineup)
            (closingPositionNames dbPositions)
            (enrichedAssignments.filter
              fun emp => emp.endTime == lastLineup.endTime)
        rw [heq []] at h
        refine ⟨lastLineup, out, poolF, rfl, ?_, ?_, hrel, ?_, ?_, ?_⟩
        · intro hnil; rw [hnil] at hce; exact hce rfl
        · intro hnil; rw [hnil] at hcp; exact hcp rfl
        · rw [← Option.some.inj h]
        · rw [← Option.some.inj h]
          simp
        · rw [← Option.some.inj h]

def cxClosingEmp : Employee :=
  { dummyEmployee with
      employeeId := some (str "x"), endTime := str "22:00" }

def cxClosingLineup : Lineup :=
  { startTime := str "20:00", endTime := str "22:00",
    shiftPeriod := str "lateNight", peopleCount := 1, positionsUsed := 1,
    extraPeople := 0,
    assignments :=
      [ { employee := cxClosingEmp, position := str "fries", matchQuality := str "best" } ] }

def cxClosingDb : List PositionRec :=
  [ { name := str "DT fries", priority := some 1, requiresClosing := true } ]

set_option maxHeartbeats 1000000 in
/-- C6 (counterexample): the claim scores +50 on a substring match *in
either direction*, but the code only tests whether the slot name occurs
inside the worker's last position: a worker last at `"fries"` facing the
closing slot `"DT fries"` scores 0 in the code (quality `fallback`),
while the claimed scoring gives 50 (quality `best`). -/
theorem generateClosingLineup_ne_spec_both :
    (generateClosingLineup [cxClosingLineup] [cxClosingEmp]
      (some cxClosingDb)).map
        (fun cl => cl.assignments.map (·.matchQuality)) =
      some [str "fallback"] ∧
    closingScoreSpecBoth (employeeCurrentPositionsOf cxClosingLineup)
      cxClosingEmp (lowerStr (str "DT fries")) = 50 ∧
    closingQuality (closingScoreSpecBoth
      (employeeCurrentPositionsOf cxClosingLineup) cxClosingEmp
      (lowerStr (str "DT fries"))) = str "best" ∧
    ¬ ((str "best" : Str) = str "fallback") :=
  ⟨by decide, by decide, by decide, by decide⟩

def dummyClosingLineup : ClosingLineup :=
  { title := [], assignments := [], peopleCount := 0 }

/-- C6 (witness): the amended closing theorem applied to the sample day,
whose closing lineup exists. -/
theorem closing_roster_builder_spec_witness :
    ∃ lastLineup out poolF,
      ((generateLineups sampleShifts sampleEmployees
        (some samplePositions)).lineups).getLast? = some lastLineup ∧
      ((enrichAssignments sampleShifts sampleEmployees).filter
        fun emp => emp.endTime == lastLineup.endTime) ≠ [] ∧
      closingPositionNames (some samplePositions) ≠ [] ∧
      ClosingAssignRel (employeeCurrentPositionsOf lastLineup)
        (closingPositionNames (some samplePositions))
        ((enrichAssignments sampleShifts sampleEmployees).filter
          fun emp => emp.endTime == lastLineup.endTime) out poolF ∧
      ((generateLineups sampleShifts sampleEmployees
        (some samplePositions)).closingLineup.getD dummyClosingLineup).title
        = str "Closing" ∧
      ((generateLineups sampleShifts sampleEmployees
        (some samplePositions)).closingLineup.getD
          dummyClosingLineup).assignments =
        out ++ poolF.map (fun employee =>
          { employee := employee, position := str "available",
            matchQuality := str "extra" }) ∧
      ((generateLineups sampleShifts sampleEmployees
        (some samplePositions)).closingLineup.getD
          dummyClosingLineup).peopleCount =
        ((generateLineups sampleShifts sampleEmployees
          (some samplePositions)).closingLineup.getD
            dummyClosingLineup).assignments.length :=
  closing_roster_builder_spec
    (generateLineups sampleShifts sampleEmployees
      (some samplePositions)).lineups
    (enrichAssignments sampleShifts sampleEmployees)
    (some samplePositions)
    ((generateLineups sampleShifts sampleEmployees
      (some samplePositions)).closingLineup.getD dummyClosingLineup)
    (by decide)

/-! ## C1: conservation of the worker pool

The assignment pipeline only moves workers around: extraction, greedy
fill, the two optimizer passes and the display sort all preserve the
multiset of workers. -/

theorem extractFlagged_perm (flag : Employee → Bool) (pool : List Employee) :
    List.Perm ((extractFlagged flag pool).1 ++ (extractFlagged flag pool).2)
      pool := by
  unfold extractFlagged
  exact ((List.reverse_perm _).append_right _).trans
    (List.filter_append_perm _ _)

theorem swap_core {α : Type u} (d : α) :
    ∀ (xs : List α) (k : Nat), k < xs.length → ∀ x : α,
      List.Perm (xs.getD k d :: xs.set k x) (x :: xs) := by
  intro xs
  induction xs with
  | nil => intro k hk; simp at hk
  | cons y ys ih =>
    intro k hk x
    cases k with
    | zero => exact List.Perm.swap _ _ _
    | succ k =>
      have hk2 : k < ys.length := by simpa using hk
      have h1 : List.Perm (ys.getD k d :: y :: ys.set k x)
          (y :: ys.getD k d :: ys.set k x) := List.Perm.swap _ _ _
      have h2 : List.Perm (y :: ys.getD k d :: ys.set k x) (y :: x :: ys) :=
        (ih k hk2 x).cons y
      exact (h1.trans h2).trans (List.Perm.swap _ _ _)

theorem set_set_perm {α : Type u} (d : α) :
    ∀ (l : List α) (i j : Nat), i < l.length → j < l.length → i ≠ j →
      List.Perm ((l.set i (l.getD j d)).set j (l.getD i d)) l := by
  intro l
  induction l with
  | nil => intro i j hi; simp at hi
  | cons c t ih =>
    intro i j hi hj hij
    cases i with
    | zero =>
      cases j with
      | zero => exact absurd rfl hij
      | succ m =>
        have hm : m < t.length := by simpa using hj
        simpa using swap_core d t m hm c
    | succ n =>
      cases j with
      | zero =>
        have hn : n < t.length := by simpa using hi
        simpa using swap_core d t n hn c
      | succ m =>
        have hn : n < t.length := by simpa using hi
        have hm : m < t.length := by simpa using hj
        simpa using (ih n m hn hm (by omega)).cons c

theorem getD_map_employee (l : List Assignment) (i : Nat) :
    (l.map (·.employee)).getD i dummyEmployee =
      if i < l.length then (l.getD i dummyAssignment).employee
      else dummyEmployee := by
  by_cases h : i < l.length
  · rw [if_pos h]
    rw [List.getD_eq_getElem?_getD, List.getElem?_map,
      List.getElem?_eq_getElem h, List.getD_eq_getElem?_getD,
      List.getElem?_eq_getElem h]
    rfl
  · rw [if_neg h]
    simp [List.getD_eq_getElem?_getD, List.getElem?_map,
      List.getElem?_eq_none (by omega : l.length ≤ i)]

/-- A two-index worker exchange (as performed by both optimizer passes)
preserves the worker multiset. -/
theorem set_swap_map_employee_perm (assignments : List Assignment)
    (i j : Nat) (hi : i < assignments.length) (hj : j < assignments.length)
    (hij : i ≠ j) (qi qj : Str) :
    List.Perm
      (((assignments.set i
        { assignments.getD i dummyAssignment with
          employee := (assignments.getD j dummyAssignment).employee,
          matchQuality := qi }).set j
        { assignments.getD j dummyAssignment with
          employee := (assignments.getD i dummyAssignment).employee,
          matchQuality := qj }).map (·.employee))
      (assignments.map (·.employee)) := by
  rw [List.map_set, List.map_set]
  dsimp only
  have e1 : ((assignments.getD j dummyAssignment).employee) =
      (assignments.map (·.employee)).getD j dummyEmployee := by
    rw [getD_map_employee, if_pos hj]
  have e2 : ((assignments.getD i dummyAssignment).employee) =
      (assignments.map (·.employee)).getD i dummyEmployee := by
    rw [getD_map_employee, if_pos hi]
  rw [e1, e2]
  exact set_set_perm dummyEmployee (assignments.map (·.employee)) i j
    (by simpa using hi) (by simpa using hj) hij

/-- Invariant-based specification of the greedy candidate scan: a `none`
result means every pool member's boosted score is 0; a `some (i, e)`
result locates `e` at index `i` of the pool. -/
theorem findBestLoop_spec (position : Str)
    (prev : List (Option Str × Str)) :
    ∀ (pool seen : List Employee) (best : Option (Nat × Employee)) (bs : Nat),
      ((best = none ∧ bs = 0 ∧ ∀ x ∈ seen,
          scoreEmployeeForPosition x position true (lookupPrev prev x) = 0) ∨
        (∃ pre eb post, best = some (pre.length, eb) ∧
          seen = pre ++ eb :: post)) →
      (match findBestLoop position prev pool seen.length best bs with
        | none => ∀ x ∈ seen ++ pool,
            scoreEmployeeForPosition x position true (lookupPrev prev x) = 0
        | some (i, e) =>
            ∃ pre post, seen ++ pool = pre ++ e :: post ∧ i = pre.length) := by
  intro pool
  induction pool with
  | nil =>
    intro seen best bs hinv
    rcases hinv with ⟨hb, _, hz⟩ | ⟨pre, eb, post, hb, hs⟩
    · subst hb
      simpa [findBestLoop] using hz
    · subst hb hs
      simp only [findBestLoop, List.append_nil]
      exact ⟨pre, post, rfl, rfl⟩
  | cons e rest ih =>
    intro seen best bs hinv
    simp only [findBestLoop]
    split_ifs with hgt
    · have hlen : seen.length + 1 = (seen ++ [e]).length := by simp
      rw [hlen]
      have hnext := ih (seen ++ [e])
        (some (seen.length, e))
        (scoreEmployeeForPosition e position true (lookupPrev prev e))
        (Or.inr ⟨seen, e, [], rfl, rfl⟩)
      rw [List.append_assoc] at hnext
      simpa using hnext
    · have hlen : seen.length + 1 = (seen ++ [e]).length := by simp
      rw [hlen]
      rcases hinv with ⟨hb, hbs, hz⟩ | ⟨pre, eb, post, hb, hs⟩
      · subst hb hbs
        have hz2 : ∀ x ∈ seen ++ [e],
            scoreEmployeeForPosition x position true (lookupPrev prev x) = 0 := by
          intro x hx
          rcases List.mem_append.mp hx with hx | hx
          · exact hz x hx
          · rcases List.mem_singleton.mp hx with rfl
            omega
        have hnext := ih (seen ++ [e]) none 0 (Or.inl ⟨rfl, rfl, hz2⟩)
        rw [List.append_assoc] at hnext
        simpa using hnext
      · subst hb hs
        have hnext := ih ((pre ++ eb :: post) ++ [e]) (some (pre.length, eb)) bs
          (Or.inr ⟨pre, eb, post ++ [e], rfl, by simp⟩)
        rw [List.append_assoc] at hnext
        simpa using hnext

theorem findBestEmployee_none {position : Str} {prev : List (Option Str × Str)}
    {pool : List Employee} (h : findBestEmployee position prev pool = none) :
    ∀ x ∈ pool,
      scoreEmployeeForPosition x position true (lookupPrev prev x) = 0 := by
  have := findBestLoop_spec position prev pool [] none 0
    (Or.inl ⟨rfl, rfl, by simp⟩)
  rw [show ([] : List Employee).length = 0 from rfl] at this
  unfold findBestEmployee at h
  rw [h] at this
  simpa using this

theorem findBestEmployee_some {position : Str} {prev : List (Option Str × Str)}
    {pool : List Employee} {i : Nat} {e : Employee}
    (h : findBestEmployee position prev pool = some (i, e)) :
    ∃ pre post, pool = pre ++ e :: post ∧ i = pre.length := by
  have := findBestLoop_spec position prev pool [] none 0
    (Or.inl ⟨rfl, rfl, by simp⟩)
  rw [show ([] : List Employee).length = 0 from rfl] at this
  unfold findBestEmployee at h
  rw [h] at this
  simpa using this

/-- The greedy fill preserves the worker multiset: output assignments
plus leftover pool carry exactly the input accumulator plus pool. -/
theorem greedyFill_perm (prev : List (Option Str × Str)) :
    ∀ (poss : List Str) (pool : List Employee) (acc : List Assignment),
      List.Perm
        ((greedyFill prev poss pool acc).1.map (·.employee)
          ++ (greedyFill prev poss pool acc).2)
        (acc.map (·.employee) ++ pool) := by
  intro poss
  induction poss with
  | nil => intro pool acc; simp [greedyFill]
  | cons position rest ih =>
    intro pool acc
    simp only [greedyFill]
    rcases hf : findBestEmployee position prev pool with _ | ⟨i, e⟩
    · cases pool with
      | nil => simpa using ih [] acc
      | cons e pool1 =>
        refine (ih pool1 _).trans ?_
        rw [List.map_append]
        simp
    · obtain ⟨pre, post, hdecomp, hi⟩ := findBestEmployee_some hf
      subst hi
      subst hdecomp
      dsimp only
      rw [eraseIdx_append_length]
      refine (ih (pre ++ post) _).trans ?_
      rw [List.map_append, List.append_assoc]
      refine List.Perm.append_left _ ?_
      simpa using List.perm_middle.symm

theorem findSwapB_some {assignments : List Assignment} {i j : Nat}
    (h : findSwapB assignments = some (i, j)) :
    i < assignments.length ∧ j < assignments.length ∧ i ≠ j ∧
    isSpecialPosition (assignments.getD i dummyAssignment).position = false ∧
    (assignments.getD i dummyAssignment).matchQuality ≠ str "best" ∧
    (assignments.getD j dummyAssignment).position = extraLabel ∧
    uScore (assignments.getD j dummyAssignment).employee
      (assignments.getD i dummyAssignment).position ≥ 10 := by
  unfold findSwapB at h
  have hmem := List.mem_of_find?_eq_some h
  have hpred := List.find?_some h
  simp only [List.mem_flatMap, List.mem_map, List.mem_filter,
    List.mem_range, decide_eq_true_eq] at hmem
  obtain ⟨i0, hi0, j0, ⟨hj0, hne⟩, heq⟩ := hmem
  obtain ⟨rfl, rfl⟩ := Prod.mk.injEq .. ▸ And.intro
    (congrArg Prod.fst heq) (congrArg Prod.snd heq)
  rw [Bool.and_eq_true, Bool.and_eq_true, Bool.and_eq_true] at hpred
  obtain ⟨⟨⟨o1, o2⟩, o3⟩, o4⟩ := hpred
  rw [Bool.not_eq_true'] at o1
  refine ⟨hi0, hj0, fun hij => hne hij.symm, o1, ?_, ?_, ?_⟩
  · intro hq
    rw [Bool.not_eq_true'] at o2
    rw [hq] at o2
    exact absurd o2 (by decide)
  · exact beq_iff_eq.mp o3
  · exact of_decide_eq_true o4

theorem optimizeA_perm : ∀ (fuel : Nat) (assignments : List Assignment),
    List.Perm ((optimizeA fuel assignments).1.map (·.employee))
      (assignments.map (·.employee)) := by
  intro fuel
  induction fuel with
  | zero => intro as; simp [optimizeA]
  | succ n ih =>
    intro as
    rcases hf : findSwapA as with _ | ⟨i, j⟩
    · simp [optimizeA, hf]
    · obtain ⟨hij, hjn, -, -, -⟩ := findSwapA_some hf
      have hswap : List.Perm ((applySwapA as i j).map (·.employee))
          (as.map (·.employee)) := by
        unfold applySwapA
        dsimp only
        exact set_swap_map_employee_perm as i j (lt_trans hij hjn) hjn
          (Nat.ne_of_lt hij) _ _
      simp only [optimizeA, hf]
      exact (ih (applySwapA as i j)).trans hswap

theorem optimizeB_perm : ∀ (fuel : Nat) (assignments : List Assignment),
    List.Perm ((optimizeB fuel assignments).1.map (·.employee))
      (assignments.map (·.employee)) := by
  intro fuel
  induction fuel with
  | zero => intro as; simp [optimizeB]
  | succ n ih =>
    intro as
    rcases hf : findSwapB as with _ | ⟨i, j⟩
    · simp [optimizeB, hf]
    · obtain ⟨hi, hj, hij, -, -, -, -⟩ := findSwapB_some hf
      have hswap : List.Perm ((applySwapB as i j).map (·.employee))
          (as.map (·.employee)) := by
        unfold applySwapB
        dsimp only
        exact set_swap_map_employee_perm as i j hi hj hij _ _
      simp only [optimizeB, hf]
      exact (ih (applySwapB as i j)).trans hswap

theorem map_employee_mk (l : List Employee) (p q : Str) :
    (l.map (fun e => ({ employee := e, position := p, matchQuality := q } : Assignment))).map (·.employee) = l := by
  rw [List.map_map]
  exact List.map_id _

/-- Conservation at the assignment level: the produced assignments carry
exactly the working set (as a multiset). -/
theorem assignEmployeesToPositions_perm (workingEmployees : List Employee)
    (positions : List Str) (startTime : Str)
    (prev : List (Option Str × Str)) (pm : Option (List (Str × Int))) :
    List.Perm
      ((assignEmployeesToPositions workingEmployees positions startTime
        prev pm).map (·.employee)) workingEmployees := by
  unfold assignEmployeesToPositions
  dsimp only
  refine ((List.perm_insertionSort _ _).map _).trans ?_
  refine (optimizeB_perm 100 _).trans ?_
  refine (optimizeA_perm 100 _).trans ?_
  rw [List.map_append]
  rw [map_employee_mk]
  refine (greedyFill_perm prev _ _ _).trans ?_
  rw [List.map_append, List.map_append, map_employee_mk, map_employee_mk,
    map_employee_mk, List.append_assoc, List.append_assoc]
  refine (List.Perm.append_left _ ?_).trans
    (extractFlagged_perm (·.isShiftLead) workingEmployees)
  refine (List.Perm.append_left _ ?_).trans
    (extractFlagged_perm (·.isBooster) _)
  exact (extractFlagged_perm (·.isInTraining) _)

theorem map_employee_addBreak (enriched : List Employee)
    (l : List Assignment) :
    ((l.map (addBreakFlags enriched)).map (·.employee)) =
      l.map (·.employee) := by
  rw [List.map_map]
  apply List.map_congr_left
  intro a _
  exact addBreakFlags_employee enriched a

theorem enrich_employeeId (shiftAssignments : List ShiftWindow)
    (employees : List EmployeeRec) :
    (enrichAssignments shiftAssignments employees).map (·.employeeId) =
      shiftAssignments.map (·.employeeId) := by
  unfold enrichAssignments
  rw [List.map_map]
  apply List.map_congr_left
  intro w _
  dsimp only [Function.comp]
  rcases h : employees.find? (fun e => e.id == w.employeeId) with _ | emp <;>
    rw [h]

set_option maxHeartbeats 1000000 in
/-- C1 (conservation): every produced lineup belongs to an interval
starting at one of the change points `t`, and its assignment list carries
exactly that interval's working set (the windows with
`start ≤ t < end`): the assignments' workers are a permutation of the
working set, the number of assignments (and the recorded `peopleCount`)
equals the working set's size, and — when windows are unique per worker —
every working worker appears in exactly one assignment. -/
theorem conservation (shiftAssignments : List ShiftWindow)
    (employees : List EmployeeRec) (dbPositions : Option (List PositionRec)) :
    ∀ L ∈ (generateLineups shiftAssignments employees dbPositions).lineups,
      ∃ t, t ∈ getChangePoints (enrichAssignments shiftAssignments employees) ∧
        L.startTime = minutesToTime t ∧
        List.Perm (L.assignments.map (·.employee))
          (getWorkingEmployees (enrichAssignments shiftAssignments employees) t) ∧
        L.assignments.length =
          (getWorkingEmployees (enrichAssignments shiftAssignments employees)
            t).length ∧
        L.peopleCount =
          (getWorkingEmployees (enrichAssignments shiftAssignments employees)
            t).length ∧
        ((shiftAssignments.map (·.employeeId)).Nodup →
          ∀ e ∈ getWorkingEmployees (enrichAssignments shiftAssignments
            employees) t,
            (L.assignments.filter (fun a => a.employee == e)).length = 1) := by
  intro L hL
  rw [generateLineups_lineups_eq] at hL
  obtain ⟨t1, t2, prev0, r, hstep, rfl, ht1⟩ := mem_genLoop hL
  obtain ⟨sp, pos, -, -, -, hr⟩ := lineupStep_some hstep
  have hperm : List.Perm (r.1.assignments.map (·.employee))
      (getWorkingEmployees (enrichAssignments shiftAssignments employees)
        t1) := by
    rw [hr]
    dsimp only
    rw [map_employee_addBreak]
    exact assignEmployeesToPositions_perm _ _ _ _ _
  refine ⟨t1, ht1, by rw [hr], hperm, ?_, by rw [hr], ?_⟩
  · have := hperm.length_eq
    simpa using this
  · intro hnodup e he
    have hcount : (r.1.assignments.filter (fun a => a.employee == e)).length =
        (r.1.assignments.map (·.employee)).count e := by
      rw [List.count, List.countP_map, ← List.countP_eq_length_filter]
      rfl
    rw [hcount, hperm.count_eq]
    have hnodupE : (getWorkingEmployees
        (enrichAssignments shiftAssignments employees) t1).Nodup := by
      apply List.Nodup.filter
      apply List.Nodup.of_map (·.employeeId)
      rw [enrich_employeeId]
      exact hnodup
    exact List.count_eq_one_of_mem hnodupE he

/-- C1 (witness): conservation applied to the sample day's first lineup. -/
theorem conservation_witness :
    ∃ t, t ∈ getChangePoints (enrichAssignments sampleShifts
      sampleEmployees) ∧
      sampleLineup0.startTime = minutesToTime t ∧
      List.Perm (sampleLineup0.assignments.map (·.employee))
        (getWorkingEmployees (enrichAssignments sampleShifts sampleEmployees)
          t) ∧
      sampleLineup0.assignments.length =
        (getWorkingEmployees (enrichAssignments sampleShifts sampleEmployees)
          t).length ∧
      sampleLineup0.peopleCount =
        (getWorkingEmployees (enrichAssignments sampleShifts sampleEmployees)
          t).length ∧
      ((sampleShifts.map (·.employeeId)).Nodup →
        ∀ e ∈ getWorkingEmployees (enrichAssignments sampleShifts
          sampleEmployees) t,
          (sampleLineup0.assignments.filter
            (fun a => a.employee == e)).length = 1) :=
  conservation sampleShifts sampleEmployees (some samplePositions)
    sampleLineup0 (by decide)

/-! ## C2: quality consistency -/

set_option maxHeartbeats 1000000 in
/-- The unboosted score is a lower bound for any boosted score. -/
theorem uScore_le_boosted (e : Employee) (p : Str) (b : Bool)
    (prev : Option Str) :
    uScore e p ≤ scoreEmployeeForPosition e p b prev := by
  unfold uScore scoreEmployeeForPosition
  dsimp only
  rcases prev with _ | pv <;>
    rcases b with _ | _ <;>
      (try dsimp only) <;>
      rcases List.lookup ((splitOnChar '/' p).headD [])
        checklistPositionPriority with _ | q <;>
      (try dsimp only) <;>
      first
        | contradiction
        | exact Nat.le_refl _
        | exact Nat.le_add_right _ _
        | (split_ifs <;>
            first
              | contradiction
              | exact Nat.le_refl _
              | exact Nat.le_add_right _ _
              | exact Nat.le_trans (Nat.le_add_right _ _)
                  (Nat.le_add_right _ _))

/-- The quality-consistency invariant: any assignment not carrying one of
the four special labels is labelled by the unboosted-score rule. -/
def qualityRuleAt (a : Assignment) : Prop :=
  a.position ∉ [leadLabel, boosterLabel, trainingLabel, extraLabel] →
    a.matchQuality = qualityOf (uScore a.employee a.position)

theorem greedyFill_inv (prev : List (Option Str × Str)) :
    ∀ (poss : List Str) (pool : List Employee) (acc : List Assignment),
      (∀ a ∈ acc, qualityRuleAt a) →
      ∀ a ∈ (greedyFill prev poss pool acc).1, qualityRuleAt a := by
  intro poss
  induction poss with
  | nil => intro pool acc hacc; simpa [greedyFill] using hacc
  | cons position rest ih =>
    intro pool acc hacc
    simp only [greedyFill]
    rcases hf : findBestEmployee position prev pool with _ | ⟨i, e⟩
    · cases pool with
      | nil => exact ih [] acc hacc
      | cons e pool1 =>
        apply ih pool1
        intro a ha
        rcases List.mem_append.mp ha with ha | ha
        · exact hacc a ha
        · rcases List.mem_singleton.mp ha with rfl
          intro _
          have hz := findBestEmployee_none hf e (List.mem_cons_self e pool1)
          have hle := uScore_le_boosted e position true (lookupPrev prev e)
          have : uScore e position = 0 := by omega
          rw [this]
          rfl
    · dsimp only
      apply ih
      intro a ha
      rcases List.mem_append.mp ha with ha | ha
      · exact hacc a ha
      · rcases List.mem_singleton.mp ha with rfl
        intro _
        rfl

theorem applySwapA_inv {assignments : List Assignment} {i j : Nat}
    (hall : ∀ a ∈ assignments, qualityRuleAt a) :
    ∀ a ∈ applySwapA assignments i j, qualityRuleAt a := by
  intro a ha
  unfold applySwapA at ha
  rcases List.mem_or_eq_of_mem_set ha with ha | rfl
  · rcases List.mem_or_eq_of_mem_set ha with ha | rfl
    · exact hall a ha
    · intro _; rfl
  · intro _; rfl

theorem optimizeA_inv : ∀ (fuel : Nat) (assignments : List Assignment),
    (∀ a ∈ assignments, qualityRuleAt a) →
    ∀ a ∈ (optimizeA fuel assignments).1, qualityRuleAt a := by
  intro fuel
  induction fuel with
  | zero => intro as hall; simpa [optimizeA] using hall
  | succ n ih =>
    intro as hall
    rcases hf : findSwapA as with _ | ⟨i, j⟩
    · simpa [optimizeA, hf] using hall
    · simp only [optimizeA, hf]
      exact ih (applySwapA as i j) (applySwapA_inv hall)

theorem applySwapB_inv {assignments : List Assignment} {i j : Nat}
    (hfound : findSwapB assignments = some (i, j))
    (hall : ∀ a ∈ assignments, qualityRuleAt a) :
    ∀ a ∈ applySwapB assignments i j, qualityRuleAt a := by
  obtain ⟨-, -, -, -, -, hextra, hscore⟩ := findSwapB_some hfound
  intro a ha
  unfold applySwapB at ha
  rcases List.mem_or_eq_of_mem_set ha with ha | rfl
  · rcases List.mem_or_eq_of_mem_set ha with ha | rfl
    · exact hall a ha
    · intro _
      dsimp only
      unfold qualityOf
      rw [if_pos hscore]
  · intro habs
    simp at habs
    exact absurd (by simpa using hextra) habs.2.2.2

theorem optimizeB_inv : ∀ (fuel : Nat) (assignments : List Assignment),
    (∀ a ∈ assignments, qualityRuleAt a) →
    ∀ a ∈ (optimizeB fuel assignments).1, qualityRuleAt a := by
  intro fuel
  induction fuel with
  | zero => intro as hall; simpa [optimizeB] using hall
  | succ n ih =>
    intro as hall
    rcases hf : findSwapB as with _ | ⟨i, j⟩
    · simpa [optimizeB, hf] using hall
    · simp only [optimizeB, hf]
      exact ih (applySwapB as i j) (applySwapB_inv hf hall)

/-- Quality consistency at the assignment level. -/
theorem assignEmployeesToPositions_inv (workingEmployees : List Employee)
    (positions : List Str) (startTime : Str)
    (prev : List (Option Str × Str)) (pm : Option (List (Str × Int))) :
    ∀ a ∈ assignEmployeesToPositions workingEmployees positions startTime
      prev pm, qualityRuleAt a := by
  unfold assignEmployeesToPositions
  dsimp only
  intro a ha
  have ha2 := (List.perm_insertionSort _ _).mem_iff.mp ha
  refine optimizeB_inv 100 _ ?_ a ha2
  refine optimizeA_inv 100 _ ?_
  intro b hb
  rcases List.mem_append.mp hb with hb | hb
  · refine greedyFill_inv _ _ _ _ ?_ b hb
    intro c hc
    rcases List.mem_append.mp hc with hc | hc
    · rcases List.mem_append.mp hc with hc | hc
      · obtain ⟨e2, -, rfl⟩ := List.mem_map.mp hc
        intro habs
        exact absurd (by simp) habs
      · obtain ⟨e2, -, rfl⟩ := List.mem_map.mp hc
        intro habs
        exact absurd (by simp) habs
    · obtain ⟨e2, -, rfl⟩ := List.mem_map.mp hc
      intro habs
      exact absurd (by simp) habs
  · obtain ⟨e2, -, rfl⟩ := List.mem_map.mp hb
    intro habs
    exact absurd (by simp) habs

theorem addBreakFlags_position (enriched : List Employee) (b : Assignment) :
    (addBreakFlags enriched b).position = b.position := by
  unfold addBreakFlags
  rcases hfind : enriched.find? (fun ea =>
      ea.employeeId == b.employee.employeeId
        || ea.name == b.employee.name) with _ | w <;> rw [hfind]

theorem addBreakFlags_matchQuality (enriched : List Employee)
    (b : Assignment) :
    (addBreakFlags enriched b).matchQuality = b.matchQuality := by
  unfold addBreakFlags
  rcases hfind : enriched.find? (fun ea =>
      ea.employeeId == b.employee.employeeId
        || ea.name == b.employee.name) with _ | w <;> rw [hfind]

set_option maxHeartbeats 1000000 in
/-- C2 (quality consistency): in every produced lineup — after the greedy
fill (including the forced-fallback branch) and both optimizer passes —
every assignment whose label is not `lead (floating)`,
`booster (floating)`, `in training` or `extra/support` has
`matchQuality = best` iff the worker's unboosted base score at the slot
is ≥ 10, `capable` iff it is in `[5, 10)`, and `fallback` otherwise. -/
theorem quality_consistency (shiftAssignments : List ShiftWindow)
    (employees : List EmployeeRec) (dbPositions : Option (List PositionRec)) :
    ∀ L ∈ (generateLineups shiftAssignments employees dbPositions).lineups,
      ∀ a ∈ L.assignments,
      a.position ∉ [leadLabel, boosterLabel, trainingLabel, extraLabel] →
      ((a.matchQuality = str "best" ↔ 10 ≤ uScore a.employee a.position) ∧
       (a.matchQuality = str "capable" ↔
         (5 ≤ uScore a.employee a.position ∧
           uScore a.employee a.position < 10)) ∧
       (a.matchQuality = str "fallback" ↔
         uScore a.employee a.position < 5)) := by
  intro L hL a ha hno
  rw [generateLineups_lineups_eq] at hL
  obtain ⟨t1, t2, prev0, r, hstep, rfl, -⟩ := mem_genLoop hL
  obtain ⟨sp, pos, -, -, -, hr⟩ := lineupStep_some hstep
  rw [hr] at ha
  obtain ⟨b, hb, rfl⟩ := List.mem_map.mp ha
  rw [addBreakFlags_position] at hno
  have hq := assignEmployeesToPositions_inv _ _ _ _ _ b hb hno
  rw [addBreakFlags_position, addBreakFlags_matchQuality,
    addBreakFlags_employee, hq]
  unfold qualityOf
  split_ifs with h1 h2
  · exact ⟨⟨fun _ => h1, fun _ => rfl⟩,
      ⟨fun heq => absurd heq (by decide), fun hc => by omega⟩,
      ⟨fun heq => absurd heq (by decide), fun hc => by omega⟩⟩
  · exact ⟨⟨fun heq => absurd heq (by decide), fun hc => by omega⟩,
      ⟨fun _ => ⟨h2, by omega⟩, fun _ => rfl⟩,
      ⟨fun heq => absurd heq (by decide), fun hc => by omega⟩⟩
  · exact ⟨⟨fun heq => absurd heq (by decide), fun hc => by omega⟩,
      ⟨fun heq => absurd heq (by decide), fun hc => by omega⟩,
      ⟨fun _ => by omega, fun _ => rfl⟩⟩

/-- C2 (witness): quality consistency at the sample day's first
assignment (slot `primary`, quality `best`, unboosted score 10). -/
theorem quality_consistency_witness :
    ((sampleLineup0.assignments.headD dummyAssignment).matchQuality
        = str "best" ↔
      10 ≤ uScore (sampleLineup0.assignments.headD dummyAssignment).employee
        (sampleLineup0.assignments.headD dummyAssignment).position) ∧
    ((sampleLineup0.assignments.headD dummyAssignment).matchQuality
        = str "capable" ↔
      (5 ≤ uScore (sampleLineup0.assignments.headD dummyAssignment).employee
        (sampleLineup0.assignments.headD dummyAssignment).position ∧
       uScore (sampleLineup0.assignments.headD dummyAssignment).employee
        (sampleLineup0.assignments.headD dummyAssignment).position < 10)) ∧
    ((sampleLineup0.assignments.headD dummyAssignment).matchQuality
        = str "fallback" ↔
      uScore (sampleLineup0.assignments.headD dummyAssignment).employee
        (sampleLineup0.assignments.headD dummyAssignment).position < 5) :=
  quality_consistency sampleShifts sampleEmployees (some samplePositions)
    sampleLineup0 (by decide)
    (sampleLineup0.assignments.headD dummyAssignment) (by decide) (by decide)

/-! ## C10: windows matching no employee record -/

/-- The enriched worker produced for a window that matches no employee
record (the `find? = none` branch of `enrichAssignments`): no skills, not
a minor, no database id, the window's own flags. -/
def enrichWindow (w : ShiftWindow) : Employee :=
  { employeeId := w.employeeId, id := none, name := orS w.name none,
    startTime := w.startTime, endTime := w.endTime,
    positions := [], bestPositions := [], isMinor := false,
    isShiftLead := w.isShiftLead, isBooster := w.isBooster,
    isInTraining := w.isInTraining }

theorem enrich_unmatched {shiftAssignments : List ShiftWindow}
    {employees : List EmployeeRec} {w : ShiftWindow}
    (hw : w ∈ shiftAssignments)
    (hunm : ∀ er ∈ employees, (er.id == w.employeeId) = false) :
    enrichWindow w ∈ enrichAssignments shiftAssignments employees := by
  have hnone : employees.find? (fun e => e.id == w.employeeId) = none :=
    List.find?_eq_none.mpr (fun er her => by rw [hunm er her]; decide)
  unfold enrichAssignments
  refine List.mem_map.mpr ⟨w, hw, ?_⟩
  dsimp only
  rw [hnone]
  rfl

/-- A worker record with no skills scores 0, unboosted, at every slot. -/
theorem uScore_skilless (e : Employee) (hp : e.positions = [])
    (hb : e.bestPositions = []) (p : Str) : uScore e p = 0 := by
  show (splitOnChar '/' p).foldl
      (fun bestScore pos =>
        if e.bestPositions.contains pos then max bestScore 10
        else if e.positions.contains pos then max bestScore 5
        else bestScore) 0 = 0
  rw [hp, hb]
  generalize splitOnChar '/' p = l
  induction l with
  | nil => rfl
  | cons x xs ih => simp [ih]

/-- The unmatched-worker invariant: an assignment carrying the given
worker is labelled `fallback` or `extra`. -/
def ghostRuleAt (g : Employee) (a : Assignment) : Prop :=
  a.employee = g →
    a.matchQuality = str "fallback" ∨ a.matchQuality = str "extra"

theorem greedyFill_ghost {g : Employee} (hg : ∀ p, uScore g p = 0)
    (prev : List (Option Str × Str)) :
    ∀ (poss : List Str) (pool : List Employee) (acc : List Assignment),
      (∀ a ∈ acc, ghostRuleAt g a) →
      ∀ a ∈ (greedyFill prev poss pool acc).1, ghostRuleAt g a := by
  intro poss
  induction poss with
  | nil => intro pool acc hacc; exact fun a ha => hacc a ha
  | cons position rest ih =>
    intro pool acc hacc
    simp only [greedyFill]
    rcases hf : findBestEmployee position prev pool with _ | ⟨i, e⟩
    · cases pool with
      | nil => exact ih [] acc hacc
      | cons e pool1 =>
        apply ih pool1
        intro a ha
        rcases List.mem_append.mp ha with ha | ha
        · exact hacc a ha
        · rcases List.mem_singleton.mp ha with rfl
          intro _
          left
          rfl
    · dsimp only
      apply ih
      intro a ha
      rcases List.mem_append.mp ha with ha | ha
      · exact hacc a ha
      · rcases List.mem_singleton.mp ha with rfl
        intro heq
        dsimp only at heq
        left
        show qualityOf (scoreEmployeeForPosition e position false none) =
          str "fallback"
        rw [heq,
          show scoreEmployeeForPosition g position false none = 0 from hg _]
        rfl

theorem applySwapA_ghost {g : Employee} (hg : ∀ p, uScore g p = 0)
    {assignments : List Assignment} {i j : Nat}
    (hall : ∀ a ∈ assignments, ghostRuleAt g a) :
    ∀ a ∈ applySwapA assignments i j, ghostRuleAt g a := by
  intro a ha
  unfold applySwapA at ha
  rcases List.mem_or_eq_of_mem_set ha with ha | rfl
  · rcases List.mem_or_eq_of_mem_set ha with ha | rfl
    · exact hall a ha
    · intro heq
      dsimp only at heq ⊢
      left
      rw [heq, hg]
      rfl
  · intro heq
    dsimp only at heq ⊢
    left
    rw [heq, hg]
    rfl

theorem applySwapB_ghost {g : Employee} (hg : ∀ p, uScore g p = 0)
    {assignments : List Assignment} {i j : Nat}
    (hfound : findSwapB assignments = some (i, j))
    (hall : ∀ a ∈ assignments, ghostRuleAt g a) :
    ∀ a ∈ applySwapB assignments i j, ghostRuleAt g a := by
  obtain ⟨-, -, -, -, -, -, hscore⟩ := findSwapB_some hfound
  intro a ha
  unfold applySwapB at ha
  rcases List.mem_or_eq_of_mem_set ha with ha | rfl
  · rcases List.mem_or_eq_of_mem_set ha with ha | rfl
    · exact hall a ha
    · intro heq
      dsimp only at heq
      rw [heq, hg] at hscore
      exact absurd hscore (by decide)
  · intro _
    right
    rfl

theorem optimizeA_ghost {g : Employee} (hg : ∀ p, uScore g p = 0) :
    ∀ (fuel : Nat) (assignments : List Assignment),
      (∀ a ∈ assignments, ghostRuleAt g a) →
      ∀ a ∈ (optimizeA fuel assignments).1, ghostRuleAt g a := by
  intro fuel
  induction fuel with
  | zero => intro as hall; simpa [optimizeA] using hall
  | succ n ih =>
    intro as hall
    rcases hf : findSwapA as with _ | ⟨i, j⟩
    · simpa [optimizeA, hf] using hall
    · simp only [optimizeA, hf]
      exact ih (applySwapA as i j) (applySwapA_ghost hg hall)

theorem optimizeB_ghost {g : Employee} (hg : ∀ p, uScore g p = 0) :
    ∀ (fuel : Nat) (assignments : List Assignment),
      (∀ a ∈ assignments, ghostRuleAt g a) →
      ∀ a ∈ (optimizeB fuel assignments).1, ghostRuleAt g a := by
  intro fuel
  induction fuel with
  | zero => intro as hall; simpa [optimizeB] using hall
  | succ n ih =>
    intro as hall
    rcases hf : findSwapB as with _ | ⟨i, j⟩
    · simpa [optimizeB, hf] using hall
    · simp only [optimizeB, hf]
      exact ih (applySwapB as i j) (applySwapB_ghost hg hf hall)

/-- The unmatched-worker invariant at the assignment level: a worker with
no role flags and score 0 everywhere only ever gets `fallback` or `extra`
labels. -/
theorem assignEmployeesToPositions_ghost {g : Employee}
    (hg : ∀ p, uScore g p = 0) (hlead : g.isShiftLead = false)
    (hboost : g.isBooster = false) (htrain : g.isInTraining = false)
    (workingEmployees : List Employee) (positions : List Str)
    (startTime : Str) (prev : List (Option Str × Str))
    (pm : Option (List (Str × Int))) :
    ∀ a ∈ assignEmployeesToPositions workingEmployees positions startTime
      prev pm, ghostRuleAt g a := by
  unfold assignEmployeesToPositions
  dsimp only
  intro a ha
  have ha2 := (List.perm_insertionSort _ _).mem_iff.mp ha
  refine optimizeB_ghost hg 100 _ ?_ a ha2
  refine optimizeA_ghost hg 100 _ ?_
  intro b hb
  rcases List.mem_append.mp hb with hb | hb
  · refine greedyFill_ghost hg _ _ _ _ ?_ b hb
    intro c hc
    rcases List.mem_append.mp hc with hc | hc
    · rcases List.mem_append.mp hc with hc | hc
      · obtain ⟨e2, he2, rfl⟩ := List.mem_map.mp hc
        intro heq
        dsimp only at heq
        simp only [extractFlagged] at he2
        have hflag := (List.mem_filter.mp (List.mem_reverse.mp he2)).2
        rw [heq, hlead] at hflag
        exact absurd hflag (by decide)
      · obtain ⟨e2, he2, rfl⟩ := List.mem_map.mp hc
        intro heq
        dsimp only at heq
        simp only [extractFlagged] at he2
        have hflag := (List.mem_filter.mp (List.mem_reverse.mp he2)).2
        rw [heq, hboost] at hflag
        exact absurd hflag (by decide)
    · obtain ⟨e2, he2, rfl⟩ := List.mem_map.mp hc
      intro heq
      dsimp only at heq
      simp only [extractFlagged] at he2
      have hflag := (List.mem_filter.mp (List.mem_reverse.mp he2)).2
      rw [heq, htrain] at hflag
      exact absurd hflag (by decide)
  · obtain ⟨e2, -, rfl⟩ := List.mem_map.mp hb
    intro _
    right
    rfl

/-- A window whose worker matches no record, carrying the shift-lead
flag. -/
def ghostLeadWindow : ShiftWindow :=
  { employeeId := some (str "gg"), name := some (str "Gus"),
    startTime := str "10:00", endTime := str "14:00", isShiftLead := true }

/-- A window whose worker matches no record and carries no role flag. -/
def ghostWindow : ShiftWindow :=
  { employeeId := some (str "gg"), name := some (str "Gus"),
    startTime := str "10:00", endTime := str "14:00" }

/-- C10 (counterexample): a window whose worker matches no employee
record but carries the shift-lead flag is assigned as `lead (floating)`
with quality `best` — not by the forced-fallback branch (`fallback`) and
not as `extra/support` (`extra`), refuting the claimed placement
restriction. -/
theorem generateLineups_unmatched_ne_claim :
    (∀ er ∈ sampleEmployees, (er.id == ghostLeadWindow.employeeId) = false) ∧
    ∃ L ∈ (generateLineups [ghostLeadWindow] sampleEmployees
        (some samplePositions)).lineups,
      ∃ a ∈ L.assignments,
        a.employee.employeeId = ghostLeadWindow.employeeId ∧
        ¬(a.matchQuality = str "fallback" ∨
          a.matchQuality = str "extra") := by
  decide

set_option maxHeartbeats 1000000 in
/-- C10 (amended): a window whose worker matches no employee record is
not dropped: it enriches to a definite skill-less worker record, whose
unboosted base score is 0 at every slot. When the window additionally
carries none of the three role flags, then in every produced lineup the
worker appears whenever the interval is covered by the window (exactly
once when windows are unique per worker), and every assignment carrying
the worker is labelled `fallback` or `extra`. (Unlike the original
claim's mechanism, the worker need not come from the forced-fallback
branch — the continuity bonus can make the normal greedy branch pick
them — but the label is still `fallback`.) -/
theorem unmatched_window_handling (shiftAssignments : List ShiftWindow)
    (employees : List EmployeeRec) (dbPositions : Option (List PositionRec))
    (w : ShiftWindow) (hw : w ∈ shiftAssignments)
    (hunm : ∀ er ∈ employees, (er.id == w.employeeId) = false)
    (hlead : w.isShiftLead = false) (hboost : w.isBooster = false)
    (htrain : w.isInTraining = false) :
    (∀ p, uScore (enrichWindow w) p = 0) ∧
    enrichWindow w ∈ enrichAssignments shiftAssignments employees ∧
    ∀ L ∈ (generateLineups shiftAssignments employees dbPositions).lineups,
      ∃ t, t ∈ getChangePoints (enrichAssignments shiftAssignments
          employees) ∧
        L.startTime = minutesToTime t ∧
        ((timeToMinutes w.startTime ≤ t ∧ t < timeToMinutes w.endTime) →
          (∃ a ∈ L.assignments, a.employee = enrichWindow w) ∧
          ((shiftAssignments.map (·.employeeId)).Nodup →
            (L.assignments.filter
              (fun a => a.employee == enrichWindow w)).length = 1)) ∧
        (∀ a ∈ L.assignments, a.employee = enrichWindow w →
          a.matchQuality = str "fallback" ∨
            a.matchQuality = str "extra") := by
  have hg : ∀ p, uScore (enrichWindow w) p = 0 := fun p =>
    uScore_skilless _ rfl rfl p
  have hmem := enrich_unmatched hw hunm
  refine ⟨hg, hmem, ?_⟩
  intro L hL
  rw [generateLineups_lineups_eq] at hL
  obtain ⟨t1, t2, prev0, r, hstep, rfl, ht1⟩ := mem_genLoop hL
  obtain ⟨sp, pos, -, -, -, hr⟩ := lineupStep_some hstep
  have hperm : List.Perm (r.1.assignments.map (·.employee))
      (getWorkingEmployees (enrichAssignments shiftAssignments employees)
        t1) := by
    rw [hr]
    dsimp only
    rw [map_employee_addBreak]
    exact assignEmployeesToPositions_perm _ _ _ _ _
  refine ⟨t1, ht1, by rw [hr], ?_, ?_⟩
  · intro hcov
    have hwork : enrichWindow w ∈ getWorkingEmployees
        (enrichAssignments shiftAssignments employees) t1 := by
      refine List.mem_filter.mpr ⟨hmem, ?_⟩
      exact decide_eq_true hcov
    constructor
    · have hmm := hperm.mem_iff.mpr hwork
      obtain ⟨a, ha, haeq⟩ := List.mem_map.mp hmm
      exact ⟨a, ha, haeq⟩
    · intro hnodup
      have hcount : (r.1.assignments.filter
          (fun a => a.employee == enrichWindow w)).length =
          (r.1.assignments.map (·.employee)).count (enrichWindow w) := by
        rw [List.count, List.countP_map, ← List.countP_eq_length_filter]
        rfl
      rw [hcount, hperm.count_eq]
      have hnodupE : (getWorkingEmployees
          (enrichAssignments shiftAssignments employees) t1).Nodup := by
        apply List.Nodup.filter
        apply List.Nodup.of_map (·.employeeId)
        rw [enrich_employeeId]
        exact hnodup
      exact List.count_eq_one_of_mem hnodupE hwork
  · intro a ha heq
    rw [hr] at ha
    obtain ⟨b, hb, rfl⟩ := List.mem_map.mp ha
    rw [addBreakFlags_matchQuality]
    rw [addBreakFlags_employee] at heq
    exact assignEmployeesToPositions_ghost hg hlead hboost htrain
      _ _ _ _ _ b hb heq

/-- C10 (witness): the amended theorem applied to a lone unmatched
flag-free window against the sample employees and catalog. -/
theorem unmatched_window_handling_witness :
    (∀ p, uScore (enrichWindow ghostWindow) p = 0) ∧
    enrichWindow ghostWindow ∈ enrichAssignments [ghostWindow]
      sampleEmployees ∧
    ∀ L ∈ (generateLineups [ghostWindow] sampleEmployees
        (some samplePositions)).lineups,
      ∃ t, t ∈ getChangePoints (enrichAssignments [ghostWindow]
          sampleEmployees) ∧
        L.startTime = minutesToTime t ∧
        ((timeToMinutes ghostWindow.startTime ≤ t ∧
            t < timeToMinutes ghostWindow.endTime) →
          (∃ a ∈ L.assignments, a.employee = enrichWindow ghostWindow) ∧
          ((([ghostWindow] : List ShiftWindow).map (·.employeeId)).Nodup →
            (L.assignments.filter
              (fun a =>
                a.employee == enrichWindow ghostWindow)).length = 1)) ∧
        (∀ a ∈ L.assignments, a.employee = enrichWindow ghostWindow →
          a.matchQuality = str "fallback" ∨
            a.matchQuality = str "extra") :=
  unmatched_window_handling [ghostWindow] sampleEmployees
    (some samplePositions) ghostWindow (by decide) (by decide)
    rfl rfl rfl

end ShiftLineup
